import Mathlib

/-!
A shallow embedding of `src/scripts/permute_tlids.py` and a verification of the
specification's claims about it.

The script works on pandas DataFrames.  A data table is modelled as a list of
column labels plus a list of rows, each row an ordered association list from
column label to cell value; labels survive even when the table has no rows,
as in pandas.  Cell values are integers (the MAFID/BLKID/TLID key columns) or
rationals (the numeric variables; the script only ever forms means and ratios
of them, so exact rationals model the arithmetic).

Randomness: `np.random.permutation` draws from numpy's *global* generator.
That generator is modelled as an infinite entropy stream `stream : Nat → Nat`
fixed for the whole process together with a position counter; each draw
consumes one stream value.  `random.seed(seed)` re-seeds the *stdlib* random
module, a separate piece of state, which the permutation draw never reads.
-/

/-! ## Definitions: the embedded program -/

deriving instance DecidableEq for Except

/-- A cell value: integer key columns or rational numeric columns. -/
inductive Val where
  | i : Int → Val
  | q : Rat → Val
deriving DecidableEq, Repr

/-- Numeric reading of a cell, as pandas coerces integers to floats in `mean`. -/
def Val.toRat : Val → Rat
  | .i n => (n : Rat)
  | .q x => x

/-- Value of a decimal digit character. -/
def charVal (c : Char) : Nat := c.toNat - '0'.toNat

/-- Digit characters of `n`, most significant first (empty for `n = 0`);
structural recursion on a fuel bounded by `n` itself. -/
def natStrGo (fuel n : Nat) : List Char :=
  match fuel with
  | 0 => []
  | fuel + 1 => if n = 0 then [] else natStrGo fuel (n / 10) ++ [Nat.digitChar (n % 10)]

/-- Model of Python `str()` on a non-negative integer: its decimal numeral. -/
def natStr (n : Nat) : String :=
  if n = 0 then "0" else String.mk (natStrGo n n)

/-- Numeric value of a digit string, most significant first. -/
def digitsVal (l : List Char) : Nat := l.foldl (fun a c => 10 * a + charVal c) 0

/-- Lookup in an ordered association-list row (first matching column label). -/
def assocGet {α : Type} (r : List (String × α)) (n : String) : Option α :=
  (r.find? (fun p => p.1 == n)).map (fun p => p.2)

/-- Overwrite the value stored under label `n` (all occurrences). -/
def assocSet {α : Type} (r : List (String × α)) (n : String) (x : α) : List (String × α) :=
  r.map (fun p => if p.1 == n then (p.1, x) else p)

/-- A pandas DataFrame: ordered column labels and rows.  Labels persist when the
table has zero rows. -/
structure Df where
  cols : List String
  rows : List (List (String × Val))
deriving DecidableEq, Repr

/-- Well-formed table: every row carries exactly the table's column labels. -/
def Df.WF (df : Df) : Prop := ∀ r ∈ df.rows, r.map Prod.fst = df.cols

instance (df : Df) : Decidable df.WF := by unfold Df.WF; infer_instance

/-- Column extraction `df[c]`, in row order. -/
def Df.colV (df : Df) (c : String) : List Val :=
  df.rows.map (fun r => (assocGet r c).getD (Val.i 0))

/-- pandas column assignment `df[c] = vs`: overwrite if the label exists,
otherwise append a new column on the right. -/
def Df.setCol (df : Df) (c : String) (vs : List Val) : Df :=
  if c ∈ df.cols then
    ⟨df.cols, List.zipWith (fun r v => assocSet r c v) df.rows vs⟩
  else
    ⟨df.cols ++ [c], List.zipWith (fun r v => r ++ [(c, v)]) df.rows vs⟩

/-- Global RNG state of the process: the stdlib `random` module state (written by
`random.seed`) and the numpy global generator's position in the entropy stream.
`np.random.permutation` reads and advances only the numpy position. -/
structure RandState where
  pyState : Nat
  npPos : Nat
deriving DecidableEq, Repr

/-- One permutation draw from the numpy stream: repeatedly pick the element
selected by the next stream value and continue on the rest; consumes one draw
per element and always returns a rearrangement of the input. -/
def randPickGo (stream : Nat → Nat) : Nat → Nat → List Val → List Val
  | 0, _, _ => []
  | fuel + 1, pos, xs =>
    if xs = [] then [] else
      let x := xs.getD (stream pos % xs.length) (Val.i 0)
      x :: randPickGo stream fuel (pos + 1) (xs.erase x)

/-- Model of `np.random.permutation xs` at stream position `pos`. -/
def randPick (stream : Nat → Nat) (pos : Nat) (xs : List Val) : List Val :=
  randPickGo stream xs.length pos xs

/-- Distinct values of a key column (order irrelevant: they are sorted after). -/
def dedupVals : List Val → List Val
  | [] => []
  | x :: xs => if x ∈ dedupVals xs then dedupVals xs else x :: dedupVals xs

/-- Total comparison used to sort group keys ascending, as pandas groupby does. -/
def Val.leb : Val → Val → Bool
  | .i a, .i b => a ≤ b
  | .i _, .q _ => true
  | .q _, .i _ => false
  | .q a, .q b => a ≤ b

def insertVal (x : Val) : List Val → List Val
  | [] => [x]
  | y :: ys => if Val.leb x y then x :: y :: ys else y :: insertVal x ys

def sortVals (l : List Val) : List Val := l.foldr insertVal []

/-- The groupby result index: distinct key values in ascending order. -/
def sortedKeys (l : List Val) : List Val := sortVals (dedupVals l)

/-- Row positions carrying block-group key `g`, in row order. -/
def npos (K : List Val) (g : Val) : List Nat :=
  (List.range K.length).filter (fun j => K.getD j (Val.i 0) == g)

/-- Values of column `C` at the rows of group `g`, in row order. -/
def grpVals (K C : List Val) (g : Val) : List Val :=
  (npos K g).map (fun j => C.getD j (Val.i 0))

/-- Stream position at which group `g`'s draw begins: groups are visited in
sorted key order, each consuming one draw per member row. -/
def grpStart (K : List Val) (pos0 : Nat) (g : Val) : Nat :=
  pos0 + (((sortedKeys K).takeWhile (fun h => h != g)).map (fun h => (npos K h).length)).sum

/-- Model of `df.groupby(k)[t].transform(np.random.permutation)`: permute column `C`
within each group of key column `K` and write the results back in the group's
original row positions. -/
def transformPermute (stream : Nat → Nat) (K C : List Val) (pos0 : Nat) : List Val :=
  (List.range K.length).map (fun j =>
    let g := K.getD j (Val.i 0)
    (randPick stream (grpStart K pos0 g) (grpVals K C g)).getD ((npos K g).indexOf j) (Val.i 0))

/-- Name of the shuffled column added for `seed`: `'TLID_permuted_' + str(seed)`. -/
def permName (seed : Nat) : String := "TLID_permuted_" ++ natStr seed

/-- Model of `permute_houses(dem_data, seed)`: `random.seed(seed)` re-seeds the stdlib
random module (and nothing else); the new column is drawn from the numpy global
stream, whose position advances by one per household row.  The mutated input
table is returned together with the new global RNG state. -/
def permute_houses (stream : Nat → Nat) (dem_data : Df) (seed : Nat) (st : RandState) :
    Df × RandState :=
  let st1 : RandState := ⟨seed, st.npPos⟩
  let K := dem_data.colV "BLKID"
  let newcol := transformPermute stream K (dem_data.colV "TLID") st1.npPos
  (dem_data.setCol (permName seed) newcol, ⟨st1.pyState, st1.npPos + K.length⟩)

/-- An aggregate / p-value table: a DataFrame of rationals keyed by an index of
segment keys (`TLID` values), one row per distinct key. -/
structure Agg where
  index : List Val
  acols : List String
  arows : List (List (String × Rat))
deriving DecidableEq, Repr

/-- Well-formed aggregate table: every row carries exactly the column labels. -/
def AggWF (a : Agg) : Prop := ∀ r ∈ a.arows, r.map Prod.fst = a.acols

instance (a : Agg) : Decidable (AggWF a) := by unfold AggWF; infer_instance

/-- Column extraction on an aggregate table, in index order. -/
def Agg.colQ (a : Agg) (n : String) : List Rat :=
  a.arows.map (fun r => (assocGet r n).getD 0)

/-- The tracked variables, hard-coded in the script as `['A','B','C','D','E']`. -/
def varNames : List String := ["A", "B", "C", "D", "E"]

/-- Arithmetic mean of a list of rationals. -/
def ratMean (l : List Rat) : Rat := l.sum / (l.length : Rat)

/-- Model of `data[[key] + vars].groupby([key]).mean()`: one row per distinct key value,
index ascending, holding each variable's mean over the key's rows. -/
def groupbyMean (df : Df) (key : String) (vs : List String) : Agg :=
  let K := df.colV key
  ⟨sortedKeys K, vs,
    (sortedKeys K).map (fun g => vs.map (fun v =>
      (v, ratMean ((grpVals K (df.colV v) g).map Val.toRat))))⟩

def valueErrMsg : String := "ValueError: Can only compare identically-labeled Series objects"
def zeroDivErrMsg : String := "ZeroDivisionError: division by zero"
def keyErrMsg : String := "KeyError: columns not in index"

/-- Line 93: `synth_aggs[synth_aggs.abs()[col] > aggs.abs()[col]].shape[0] /
synth_aggs.shape[0]`.  The pandas Series comparison is index-aligned: it demands
identical index labels (else `ValueError`) and compares the two columns
entry-wise; the masked row count is divided by the permuted table's row count,
which raises `ZeroDivisionError` when that count is zero. -/
def pValScalar (synth aggs : Agg) (v : String) : Except String Rat :=
  if synth.index = aggs.index then
    let cnt := ((synth.colQ v).zip (aggs.colQ v)).countP (fun p => decide (|p.2| < |p.1|))
    if synth.arows.length = 0 then .error zeroDivErrMsg
    else .ok ((cnt : Rat) / (synth.arows.length : Rat))
  else .error valueErrMsg

/-- Model of `aggs.loc[:, n] = x`: assign the scalar `x` to every row of column `n`,
appending the column on the right if the label is new. -/
def Agg.setColScalar (a : Agg) (n : String) (x : Rat) : Agg :=
  if n ∈ a.acols then ⟨a.index, a.acols, a.arows.map (fun r => assocSet r n x)⟩
  else ⟨a.index, a.acols ++ [n], a.arows.map (fun r => r ++ [(n, x)])⟩

/-- The per-iteration p-value column name `col + '_p_' + str(i)`. -/
def pname (v : String) (i : Nat) : String := v ++ "_p_" ++ natStr i

/-- The averaged p-value column name `col + '_avg_p'`. -/
def avgname (v : String) : String := v ++ "_avg_p"

/-- The inner loop of `find_p_vals` over the tracked variables: one p-value
scalar per variable, assigned to the whole column `pname v i`. -/
def varSteps (synth : Agg) (i : Nat) : List String → Agg → Except String Agg
  | [], aggs => .ok aggs
  | v :: rest, aggs =>
    match pValScalar synth aggs v with
    | .error e => .error e
    | .ok p => varSteps synth i rest (aggs.setColScalar (pname v i) p)

/-- One iteration of the loop in `find_p_vals`: shuffle (mutating the input
table and advancing the numpy stream), aggregate by the shuffled labels, and
append one p-value column per variable. -/
def iterStep (stream : Nat → Nat) (i : Nat) :
    Agg × Df × RandState → Except String (Agg × Df × RandState)
  | (aggs, data, st) =>
    let pr := permute_houses stream data i st
    let synth := groupbyMean pr.1 (permName i) varNames
    match varSteps synth i varNames aggs with
    | .error e => .error e
    | .ok aggs2 => .ok (aggs2, pr.1, pr.2)

def runIters (stream : Nat → Nat) :
    List Nat → Agg × Df × RandState → Except String (Agg × Df × RandState)
  | [], s => .ok s
  | i :: rest, s =>
    match iterStep stream i s with
    | .error e => .error e
    | .ok s2 => runIters stream rest s2

/-- Lines 85–94 of `find_p_vals`: the true aggregate plus one p-value column
per variable per iteration (the table handed to `average_pvals`), together
with the mutated input table and the final RNG state. -/
def find_p_vals_aggs (stream : Nat → Nat) (data : Df) (iterations : Nat) (st : RandState) :
    Except String (Agg × Df × RandState) :=
  runIters stream (List.range iterations) (groupbyMean data "TLID" varNames, data, st)

/-- Row-wise mean of the per-iteration p-value cells of variable `v`:
`these_p_vals.astype(float).mean(axis=1)` evaluated on one row. -/
def rowMeanP (iterations : Nat) (v : String) (r : List (String × Rat)) : Rat :=
  ((List.range iterations).map (fun i => (assocGet r (pname v i)).getD 0)).sum
    / (iterations : Rat)

/-- One pass of the loop in `average_pvals` for variable `v`: select the
per-iteration columns (`KeyError` if any is absent), append the averaged
column, then drop the selected columns. -/
def avgStep (iterations : Nat) (v : String) (a : Agg) : Except String Agg :=
  let pcols := (List.range iterations).map (pname v)
  if pcols.all (fun c => a.acols.contains c) then
    let a1 := if avgname v ∈ a.acols
      then (⟨a.index, a.acols,
              a.arows.map (fun r => assocSet r (avgname v) (rowMeanP iterations v r))⟩ : Agg)
      else ⟨a.index, a.acols ++ [avgname v],
              a.arows.map (fun r => r ++ [(avgname v, rowMeanP iterations v r)])⟩
    .ok ⟨a1.index, a1.acols.filter (fun c => !(pcols.contains c)),
         a1.arows.map (fun r => r.filter (fun p => !(pcols.contains p.1)))⟩
  else .error keyErrMsg

def avgSteps (iterations : Nat) : List String → Agg → Except String Agg
  | [], a => .ok a
  | v :: rest, a =>
    match avgStep iterations v a with
    | .error e => .error e
    | .ok a2 => avgSteps iterations rest a2

/-- Model of `average_pvals(pval_df, iterations)`. -/
def average_pvals (pval_df : Agg) (iterations : Nat) : Except String Agg :=
  avgSteps iterations varNames pval_df

/-- Model of `find_p_vals(data, iterations)`: per-iteration p-values then averaging;
also returns the mutated input table and final RNG state. -/
def find_p_vals (stream : Nat → Nat) (data : Df) (iterations : Nat) (st : RandState) :
    Except String (Agg × Df × RandState) :=
  match find_p_vals_aggs stream data iterations st with
  | .error e => .error e
  | .ok (aggs, d2, st2) =>
    match average_pvals aggs iterations with
    | .error e => .error e
    | .ok out => .ok (out, d2, st2)

/-- Modelled from the spec's words, not from the code: the claimed "single
global comparison" p-value of true segment `s` for variable `v` — the count of
permuted-aggregate rows whose absolute value for `v` exceeds the *true* value
at `s`, over the total permuted-aggregate row count. -/
def specGlobalPVal (synth aggs : Agg) (s : Val) (v : String) : Rat :=
  let tval := (assocGet (aggs.arows.getD (aggs.index.indexOf s) []) v).getD 0
  (((synth.colQ v).countP (fun x => decide (|tval| < |x|))) : Rat) / (synth.arows.length : Rat)

/-- Every cell outside the five original mean columns is a p-value in [0, 1]. -/
def PBound (a : Agg) : Prop :=
  ∀ r ∈ a.arows, ∀ p ∈ r, p.1 ∉ varNames → 0 ≤ p.2 ∧ p.2 ≤ 1

/-- The p-value column names contributed by a list of iteration indices,
in loop order. -/
def pnameBlocks : List Nat → List String
  | [] => []
  | i :: rest => varNames.map (fun v => pname v i) ++ pnameBlocks rest

/-! ### Averaging lemmas -/
/-- The per-iteration column names selected for variable `v`. -/
def pcolsOf (iterations : Nat) (v : String) : List String :=
  (List.range iterations).map (pname v)

/-- All per-iteration column names of a list of variables. -/
def pcolsAll (iterations : Nat) : List String → List String
  | [] => []
  | v :: rest => pcolsOf iterations v ++ pcolsAll iterations rest

/-! ### Concrete example tables -/
/-- Entropy stream used by the concrete examples: the first numpy draw is 1,
all later draws are 0. -/
def exStream : Nat → Nat := fun p => if p = 0 then 1 else 0

/-- Two households in one block group, with segment keys 1 and 2. -/
def exDf2 : Df :=
  ⟨["BLKID", "TLID"],
   [[("BLKID", Val.i 1), ("TLID", Val.i 1)],
    [("BLKID", Val.i 1), ("TLID", Val.i 2)]]⟩

/-- A single household in a single block group. -/
def exDf1 : Df :=
  ⟨["BLKID", "TLID"], [[("BLKID", Val.i 1), ("TLID", Val.i 7)]]⟩

/-- An empty household table with the full schema. -/
def exEmptyDf : Df :=
  ⟨["MAFID", "BLKID", "TLID", "A", "B", "C", "D", "E"], []⟩

/-- One block group, two households on segments 1 and 2, variable A carrying
1 and 3 (all other variables zero). -/
def exC1Df : Df :=
  ⟨["MAFID", "BLKID", "TLID", "A", "B", "C", "D", "E"],
   [[("MAFID", Val.i 101), ("BLKID", Val.i 1), ("TLID", Val.i 1), ("A", Val.q 1),
     ("B", Val.q 0), ("C", Val.q 0), ("D", Val.q 0), ("E", Val.q 0)],
    [("MAFID", Val.i 102), ("BLKID", Val.i 1), ("TLID", Val.i 2), ("A", Val.q 3),
     ("B", Val.q 0), ("C", Val.q 0), ("D", Val.q 0), ("E", Val.q 0)]]⟩

def c1Aggs0 : Agg := groupbyMean exC1Df "TLID" varNames

def c1Run : Except String (Agg × Df × RandState) :=
  iterStep exStream 0 (c1Aggs0, exC1Df, ⟨0, 0⟩)

def c1Aggs2 : Agg := match c1Run with | .ok (a, _, _) => a | .error _ => ⟨[], [], []⟩
def c1Data2 : Df := match c1Run with | .ok (_, d, _) => d | .error _ => ⟨[], []⟩
def c1St2 : RandState := match c1Run with | .ok (_, _, s) => s | .error _ => ⟨0, 0⟩

def c5Run : Except String (Agg × Df × RandState) :=
  find_p_vals_aggs exStream exC1Df 1 ⟨0, 0⟩

def c5Aggs : Agg := match c5Run with | .ok (a, _, _) => a | .error _ => ⟨[], [], []⟩
def c5Data2 : Df := match c5Run with | .ok (_, d, _) => d | .error _ => ⟨[], []⟩
def c5St2 : RandState := match c5Run with | .ok (_, _, s) => s | .error _ => ⟨0, 0⟩

def c10Run : Except String (Agg × Df × RandState) :=
  find_p_vals exStream exC1Df 1 ⟨0, 0⟩

def c10Out : Agg := match c10Run with | .ok (a, _, _) => a | .error _ => ⟨[], [], []⟩
def c10Data2 : Df := match c10Run with | .ok (_, d, _) => d | .error _ => ⟨[], []⟩
def c10St2 : RandState := match c10Run with | .ok (_, _, s) => s | .error _ => ⟨0, 0⟩

/-- A p-value table with one segment row and the five iteration-0 p-value
columns, as handed to the averager with N = 1. -/
def c6Tbl : Agg :=
  ⟨[Val.i 1],
   ["A_p_0", "B_p_0", "C_p_0", "D_p_0", "E_p_0"],
   [[("A_p_0", (1 : Rat)/2), ("B_p_0", 0), ("C_p_0", 1), ("D_p_0", (1 : Rat)/4),
     ("E_p_0", 1)]]⟩

/-! ## Theorems -/

theorem charVal_digitChar (d : Nat) (h : d < 10) : charVal (Nat.digitChar d) = d := by
  interval_cases d <;> rfl

theorem digitsVal_append_digit (xs : List Char) (c : Char) :
    digitsVal (xs ++ [c]) = 10 * digitsVal xs + charVal c := by
  simp [digitsVal, List.foldl_append]

theorem digitsVal_natStrGo (fuel : Nat) : ∀ n : Nat, n ≤ fuel →
    digitsVal (natStrGo fuel n) = n := by
  induction fuel with
  | zero => intro n hn; interval_cases n; rfl
  | succ f ih =>
    intro n hn
    by_cases hz : n = 0
    · simp [natStrGo, hz, digitsVal]
    · have hdiv : n / 10 ≤ f := by
        have := Nat.div_lt_self (Nat.pos_of_ne_zero hz) (by omega : 1 < 10)
        omega
      have hmod : n % 10 < 10 := Nat.mod_lt _ (by omega)
      calc digitsVal (natStrGo (f + 1) n)
          = digitsVal (natStrGo f (n / 10) ++ [Nat.digitChar (n % 10)]) := by
            simp [natStrGo, hz]
        _ = 10 * digitsVal (natStrGo f (n / 10)) + charVal (Nat.digitChar (n % 10)) :=
            digitsVal_append_digit _ _
        _ = 10 * (n / 10) + n % 10 := by rw [ih _ hdiv, charVal_digitChar _ hmod]
        _ = n := by omega

theorem natStr_injective : Function.Injective natStr := by
  intro m n h
  have hdata := congrArg String.data h
  unfold natStr at hdata
  by_cases hm : m = 0 <;> by_cases hn : n = 0
  · omega
  · exfalso
    simp [hm, hn, String.mk] at hdata
    have h0 : digitsVal ['0'] = digitsVal (natStrGo n n) := by rw [hdata]
    rw [digitsVal_natStrGo n n le_rfl] at h0
    have : digitsVal ['0'] = 0 := by simp [digitsVal, charVal]
    omega
  · exfalso
    simp [hm, hn, String.mk] at hdata
    have h0 : digitsVal (natStrGo m m) = digitsVal ['0'] := by rw [hdata]
    rw [digitsVal_natStrGo m m le_rfl] at h0
    have : digitsVal ['0'] = 0 := by simp [digitsVal, charVal]
    omega
  · simp [hm, hn, String.mk] at hdata
    have h0 : digitsVal (natStrGo m m) = digitsVal (natStrGo n n) := by rw [hdata]
    rwa [digitsVal_natStrGo m m le_rfl, digitsVal_natStrGo n n le_rfl] at h0

/-! ### Association-list row lemmas -/
theorem assocGet_cons_self {α : Type} (p : String × α) (rest : List (String × α)) (n : String)
    (h : p.1 = n) : assocGet (p :: rest) n = some p.2 := by
  unfold assocGet
  rw [List.find?_cons_of_pos]
  · rfl
  · simpa using h

theorem assocGet_cons_ne {α : Type} (p : String × α) (rest : List (String × α)) (n : String)
    (h : p.1 ≠ n) : assocGet (p :: rest) n = assocGet rest n := by
  unfold assocGet
  rw [List.find?_cons_of_neg]
  simpa using h

theorem assocSet_cons {α : Type} (p : String × α) (rest : List (String × α)) (n : String)
    (x : α) :
    assocSet (p :: rest) n x = (if p.1 == n then (p.1, x) else p) :: assocSet rest n x := rfl

theorem assocGet_append_ne {α : Type} (r : List (String × α)) (n n' : String) (x : α)
    (h : n' ≠ n) : assocGet (r ++ [(n, x)]) n' = assocGet r n' := by
  induction r with
  | nil =>
    simp only [List.nil_append]
    rw [assocGet_cons_ne _ _ _ (fun hc => h hc.symm)]
  | cons p rest ih =>
    by_cases hp : p.1 = n'
    · rw [List.cons_append, assocGet_cons_self _ _ _ hp, assocGet_cons_self _ _ _ hp]
    · rw [List.cons_append, assocGet_cons_ne _ _ _ hp, assocGet_cons_ne _ _ _ hp, ih]

theorem assocGet_append_self {α : Type} (r : List (String × α)) (n : String) (x : α)
    (h : n ∉ r.map Prod.fst) : assocGet (r ++ [(n, x)]) n = some x := by
  induction r with
  | nil => simp [assocGet, List.find?]
  | cons p rest ih =>
    simp only [List.map_cons, List.mem_cons] at h
    push_neg at h
    rw [List.cons_append, assocGet_cons_ne _ _ _ (Ne.symm h.1)]
    exact ih h.2

theorem assocGet_assocSet_self {α : Type} (r : List (String × α)) (n : String) (x : α)
    (h : n ∈ r.map Prod.fst) : assocGet (assocSet r n x) n = some x := by
  induction r with
  | nil => simp at h
  | cons p rest ih =>
    rw [assocSet_cons]
    by_cases hp : p.1 = n
    · have hb : (p.1 == n) = true := by simpa using hp
      rw [if_pos hb]
      exact assocGet_cons_self (p.1, x) (assocSet rest n x) n hp
    · have hb : (p.1 == n) = false := by simpa using hp
      rw [if_neg (by simp [hb]), assocGet_cons_ne _ _ _ hp]
      simp only [List.map_cons, List.mem_cons] at h
      rcases h with h | h
      · exact absurd h.symm hp
      · exact ih h

theorem assocGet_assocSet_ne {α : Type} (r : List (String × α)) (n n' : String) (x : α)
    (h : n' ≠ n) : assocGet (assocSet r n x) n' = assocGet r n' := by
  induction r with
  | nil => rfl
  | cons p rest ih =>
    rw [assocSet_cons]
    by_cases hp : p.1 = n
    · have hb : (p.1 == n) = true := by simpa using hp
      have hne : p.1 ≠ n' := by rw [hp]; exact Ne.symm h
      rw [if_pos hb]
      rw [assocGet_cons_ne (p.1, x) (assocSet rest n x) n' hne,
        assocGet_cons_ne _ _ _ hne, ih]
    · have hb : (p.1 == n) = false := by simpa using hp
      rw [if_neg (by simp [hb])]
      by_cases hq : p.1 = n'
      · rw [assocGet_cons_self _ _ _ hq, assocGet_cons_self _ _ _ hq]
      · rw [assocGet_cons_ne _ _ _ hq, assocGet_cons_ne _ _ _ hq, ih]

theorem assocGet_filter {α : Type} (r : List (String × α)) (q : String → Bool) (n : String)
    (h : q n = true) : assocGet (r.filter (fun p => q p.1)) n = assocGet r n := by
  induction r with
  | nil => rfl
  | cons p rest ih =>
    by_cases hp : p.1 = n
    · have hq : q p.1 = true := hp ▸ h
      rw [List.filter_cons_of_pos (by simpa using hq), assocGet_cons_self _ _ _ hp,
        assocGet_cons_self _ _ _ hp]
    · cases hq : q p.1 with
      | true =>
        rw [List.filter_cons_of_pos (by simpa using hq), assocGet_cons_ne _ _ _ hp,
          assocGet_cons_ne _ _ _ hp, ih]
      | false =>
        rw [List.filter_cons_of_neg (by simpa using hq), assocGet_cons_ne _ _ _ hp, ih]

theorem assocGet_eq_none {α : Type} (r : List (String × α)) (n : String)
    (h : n ∉ r.map Prod.fst) : assocGet r n = none := by
  induction r with
  | nil => rfl
  | cons p rest ih =>
    simp only [List.map_cons, List.mem_cons] at h
    push_neg at h
    rw [assocGet_cons_ne _ _ _ (Ne.symm h.1)]
    exact ih h.2

theorem assocSet_keys {α : Type} (r : List (String × α)) (n : String) (x : α) :
    (assocSet r n x).map Prod.fst = r.map Prod.fst := by
  induction r with
  | nil => rfl
  | cons p rest ih =>
    rw [assocSet_cons]
    by_cases hp : p.1 = n
    · have hb : (p.1 == n) = true := by simpa using hp
      rw [if_pos hb]
      simpa using ih
    · have hb : (p.1 == n) = false := by simpa using hp
      rw [if_neg (by simp [hb])]
      simpa using ih

theorem filter_keys {α : Type} (r : List (String × α)) (q : String → Bool) :
    (r.filter (fun p => q p.1)).map Prod.fst = (r.map Prod.fst).filter q := by
  induction r with
  | nil => rfl
  | cons p rest ih =>
    cases hq : q p.1 with
    | true =>
      rw [List.filter_cons_of_pos (by simpa using hq), List.map_cons, List.map_cons,
        List.filter_cons_of_pos (by simpa using hq), ih]
    | false =>
      rw [List.filter_cons_of_neg (by simpa using hq), List.map_cons,
        List.filter_cons_of_neg (by simpa using hq), ih]

/-! ### DataFrame lemmas -/
theorem zipWith_getElem? {α β γ : Type} (f : α → β → γ) (l1 : List α) (l2 : List β) (i : Nat)
    (h1 : i < l1.length) (h2 : i < l2.length) :
    (List.zipWith f l1 l2)[i]? = some (f l1[i] l2[i]) := by
  rw [List.getElem?_zipWith, List.getElem?_eq_getElem h1, List.getElem?_eq_getElem h2]

theorem zipWith_length_eq {α β γ : Type} (f : α → β → γ) (l1 : List α) (l2 : List β)
    (h : l2.length = l1.length) : (List.zipWith f l1 l2).length = l1.length := by
  rw [List.length_zipWith, h, Nat.min_self]

theorem Df.colV_length (df : Df) (c : String) : (df.colV c).length = df.rows.length := by
  simp [Df.colV]

theorem Df.setCol_cols (df : Df) (c : String) (vs : List Val) :
    (df.setCol c vs).cols = if c ∈ df.cols then df.cols else df.cols ++ [c] := by
  unfold Df.setCol
  by_cases h : c ∈ df.cols <;> simp [h]

theorem Df.setCol_rows_length (df : Df) (c : String) (vs : List Val)
    (h : vs.length = df.rows.length) : (df.setCol c vs).rows.length = df.rows.length := by
  unfold Df.setCol
  by_cases hc : c ∈ df.cols <;> simp [hc, zipWith_length_eq _ _ _ h]

theorem Df.mem_setCol_rows (df : Df) (c : String) (vs : List Val)
    (hl : vs.length = df.rows.length) (r : List (String × Val))
    (hr : r ∈ (df.setCol c vs).rows) :
    ∃ i, i < df.rows.length ∧
      r = (if c ∈ df.cols then assocSet (df.rows.getD i []) c (vs.getD i (Val.i 0))
           else df.rows.getD i [] ++ [(c, vs.getD i (Val.i 0))]) := by
  unfold Df.setCol at hr
  by_cases hc : c ∈ df.cols <;>
    simp only [hc, if_true, if_false, List.mem_iff_getElem] at hr ⊢
  · obtain ⟨i, hi, he⟩ := hr
    have hi' : i < df.rows.length := by
      rw [zipWith_length_eq _ _ _ hl] at hi
      exact hi
    refine ⟨i, hi', ?_⟩
    have hz := zipWith_getElem? (fun r v => assocSet r c v) df.rows vs i hi' (hl ▸ hi')
    have h2 : (List.zipWith (fun r v => assocSet r c v) df.rows vs)[i]? = some r := by
      rw [List.getElem?_eq_getElem hi, he]
    rw [hz] at h2
    simp only [Option.some.injEq] at h2
    rw [← h2, List.getD_eq_getElem _ _ hi', List.getD_eq_getElem _ _ (hl ▸ hi')]
  · obtain ⟨i, hi, he⟩ := hr
    have hi' : i < df.rows.length := by
      rw [zipWith_length_eq _ _ _ hl] at hi
      exact hi
    refine ⟨i, hi', ?_⟩
    have hz := zipWith_getElem? (fun r v => r ++ [(c, v)]) df.rows vs i hi' (hl ▸ hi')
    have h2 : (List.zipWith (fun r v => r ++ [(c, v)]) df.rows vs)[i]? = some r := by
      rw [List.getElem?_eq_getElem hi, he]
    rw [hz] at h2
    simp only [Option.some.injEq] at h2
    rw [← h2, List.getD_eq_getElem _ _ hi', List.getD_eq_getElem _ _ (hl ▸ hi')]

theorem Df.setCol_WF (df : Df) (c : String) (vs : List Val) (h : df.WF)
    (hl : vs.length = df.rows.length) : (df.setCol c vs).WF := by
  intro r hr
  obtain ⟨i, hi, he⟩ := Df.mem_setCol_rows df c vs hl r hr
  have hmem : df.rows.getD i [] ∈ df.rows := by
    rw [List.getD_eq_getElem _ _ hi]
    exact List.getElem_mem hi
  have hrowsWF : (df.rows.getD i []).map Prod.fst = df.cols := h _ hmem
  rw [Df.setCol_cols]
  by_cases hc : c ∈ df.cols <;> simp only [hc, if_true, if_false] at he ⊢
  · rw [he, assocSet_keys, hrowsWF]
  · rw [he, List.map_append, hrowsWF]
    rfl

theorem Df.colV_setCol_self (df : Df) (c : String) (vs : List Val) (h : df.WF)
    (hl : vs.length = df.rows.length) : (df.setCol c vs).colV c = vs := by
  apply List.ext_getElem
  · rw [Df.colV_length, Df.setCol_rows_length _ _ _ hl, hl]
  · intro i hi1 hi2
    have hi : i < df.rows.length := hl ▸ hi2
    unfold Df.colV Df.setCol
    have hrowsWF : df.rows[i].map Prod.fst = df.cols := h _ (List.getElem_mem hi)
    by_cases hc : c ∈ df.cols <;> simp only [hc, if_true, if_false]
    · have hz := zipWith_getElem? (fun r v => assocSet r c v) df.rows vs i hi hi2
      have : i < (List.zipWith (fun r v => assocSet r c v) df.rows vs).length := by
        rw [zipWith_length_eq _ _ _ hl]; exact hi
      rw [List.getElem_map]
      rw [List.getElem?_eq_getElem this] at hz
      simp only [Option.some.injEq] at hz
      rw [hz, assocGet_assocSet_self _ _ _ (by rw [hrowsWF]; exact hc)]
      rfl
    · have hz := zipWith_getElem? (fun r v => r ++ [(c, v)]) df.rows vs i hi hi2
      have : i < (List.zipWith (fun r v => r ++ [(c, v)]) df.rows vs).length := by
        rw [zipWith_length_eq _ _ _ hl]; exact hi
      rw [List.getElem_map]
      rw [List.getElem?_eq_getElem this] at hz
      simp only [Option.some.injEq] at hz
      rw [hz, assocGet_append_self _ _ _ (by rw [hrowsWF]; exact hc)]
      rfl

theorem Df.colV_setCol_ne (df : Df) (c c' : String) (vs : List Val) (h : c' ≠ c)
    (hl : vs.length = df.rows.length) : (df.setCol c vs).colV c' = df.colV c' := by
  apply List.ext_getElem
  · rw [Df.colV_length, Df.setCol_rows_length _ _ _ hl, Df.colV_length]
  · intro i hi1 hi2
    have hi : i < df.rows.length := by rw [Df.colV_length] at hi2; exact hi2
    unfold Df.colV Df.setCol
    by_cases hc : c ∈ df.cols <;> simp only [hc, if_true, if_false]
    · have hz := zipWith_getElem? (fun r v => assocSet r c v) df.rows vs i hi (hl ▸ hi)
      have hlt : i < (List.zipWith (fun r v => assocSet r c v) df.rows vs).length := by
        rw [zipWith_length_eq _ _ _ hl]; exact hi
      rw [List.getElem_map, List.getElem_map]
      rw [List.getElem?_eq_getElem hlt] at hz
      simp only [Option.some.injEq] at hz
      rw [hz, assocGet_assocSet_ne _ _ _ _ h]
    · have hz := zipWith_getElem? (fun r v => r ++ [(c, v)]) df.rows vs i hi (hl ▸ hi)
      have hlt : i < (List.zipWith (fun r v => r ++ [(c, v)]) df.rows vs).length := by
        rw [zipWith_length_eq _ _ _ hl]; exact hi
      rw [List.getElem_map, List.getElem_map]
      rw [List.getElem?_eq_getElem hlt] at hz
      simp only [Option.some.injEq] at hz
      rw [hz, assocGet_append_ne _ _ _ _ h]

/-! ### Permutation-draw lemmas -/
theorem randPickGo_perm (stream : Nat → Nat) :
    ∀ fuel pos xs, xs.length ≤ fuel → (randPickGo stream fuel pos xs).Perm xs := by
  intro fuel
  induction fuel with
  | zero =>
    intro pos xs h
    have hnil : xs = [] := List.length_eq_zero.mp (Nat.le_zero.mp h)
    subst hnil
    simp [randPickGo]
  | succ f ih =>
    intro pos xs h
    by_cases hxs : xs = []
    · subst hxs; simp [randPickGo]
    · have hlen : 0 < xs.length := List.length_pos.mpr hxs
      have hj : stream pos % xs.length < xs.length := Nat.mod_lt _ hlen
      have hxmem : xs.getD (stream pos % xs.length) (Val.i 0) ∈ xs := by
        rw [List.getD_eq_getElem _ _ hj]
        exact List.getElem_mem hj
      have herase : (xs.erase (xs.getD (stream pos % xs.length) (Val.i 0))).length ≤ f := by
        rw [List.length_erase_of_mem hxmem]
        omega
      have hstep : randPickGo stream (f + 1) pos xs
          = xs.getD (stream pos % xs.length) (Val.i 0)
            :: randPickGo stream f (pos + 1)
                (xs.erase (xs.getD (stream pos % xs.length) (Val.i 0))) := by
        rw [randPickGo]
        simp [hxs]
      rw [hstep]
      exact ((ih (pos + 1) _ herase).cons _).trans (List.perm_cons_erase hxmem).symm

theorem randPick_perm (stream : Nat → Nat) (pos : Nat) (xs : List Val) :
    (randPick stream pos xs).Perm xs :=
  randPickGo_perm stream xs.length pos xs le_rfl

theorem randPick_length (stream : Nat → Nat) (pos : Nat) (xs : List Val) :
    (randPick stream pos xs).length = xs.length :=
  (randPick_perm stream pos xs).length_eq

/-! ### Within-group restriction of the transform -/
theorem npos_nodup (K : List Val) (g : Val) : (npos K g).Nodup :=
  (List.nodup_range _).filter _

theorem mem_npos (K : List Val) (g : Val) (j : Nat) :
    j ∈ npos K g ↔ j < K.length ∧ K.getD j (Val.i 0) = g := by
  simp [npos, List.mem_filter, List.mem_range, and_comm]

theorem transformPermute_length (stream : Nat → Nat) (K C : List Val) (pos0 : Nat) :
    (transformPermute stream K C pos0).length = K.length := by
  simp [transformPermute]

theorem mapRange_getD {α : Type} (n : Nat) (f : Nat → α) (j : Nat) (d : α) (h : j < n) :
    ((List.range n).map f).getD j d = f j := by
  have hlen : j < ((List.range n).map f).length := by simpa using h
  rw [List.getD_eq_getElem _ _ hlen, List.getElem_map, List.getElem_range]

theorem grpVals_length (K C : List Val) (g : Val) :
    (grpVals K C g).length = (npos K g).length := by
  simp [grpVals]

theorem grpVals_transformPermute (stream : Nat → Nat) (K C : List Val) (pos0 : Nat) (g : Val) :
    grpVals K (transformPermute stream K C pos0) g
      = randPick stream (grpStart K pos0 g) (grpVals K C g) := by
  apply List.ext_getElem
  · rw [grpVals_length, randPick_length, grpVals_length]
  · intro r h1 h2
    have hr : r < (npos K g).length := by rwa [grpVals_length] at h1
    have hjmem : (npos K g)[r] ∈ npos K g := List.getElem_mem hr
    obtain ⟨hjlt, hjval⟩ := (mem_npos K g _).mp hjmem
    have hidx : (npos K g).indexOf (npos K g)[r] = r :=
      List.indexOf_getElem (npos_nodup K g) r hr
    have hLHS : (grpVals K (transformPermute stream K C pos0) g)[r]
        = (transformPermute stream K C pos0).getD (npos K g)[r] (Val.i 0) := by
      simp [grpVals]
    rw [hLHS]
    unfold transformPermute
    rw [mapRange_getD _ _ _ _ hjlt, hjval]
    simp only [hidx]
    rw [List.getD_eq_getElem _ _ h2]

theorem grpVals_permute_perm (stream : Nat → Nat) (K C : List Val) (pos0 : Nat) (g : Val) :
    (grpVals K (transformPermute stream K C pos0) g).Perm (grpVals K C g) := by
  rw [grpVals_transformPermute]
  exact randPick_perm _ _ _

/-! ### Column-name lemmas -/
theorem string_append_inj (v w x y : String) (hlen : v.length = w.length)
    (h : v ++ x = w ++ y) : v = w ∧ x = y := by
  have hd := congrArg String.data h
  rw [String.data_append, String.data_append] at hd
  have hlen' : v.data.length = w.data.length := hlen
  obtain ⟨h1, h2⟩ := List.append_inj hd hlen'
  exact ⟨congrArg String.mk h1, congrArg String.mk h2⟩

theorem natStr_length_pos (n : Nat) : 0 < (natStr n).length := by
  unfold natStr
  by_cases h : n = 0
  · simp only [h, if_true]
    decide
  · simp only [h, if_false]
    obtain ⟨f, rfl⟩ : ∃ f, n = f + 1 := ⟨n - 1, by omega⟩
    show 0 < (natStrGo (f + 1) (f + 1)).length
    rw [natStrGo]
    simp [h]

theorem pname_length (v : String) (i : Nat) :
    (pname v i).length = v.length + 3 + (natStr i).length := by
  unfold pname
  rw [String.length_append, String.length_append]
  rfl

theorem avgname_length (v : String) : (avgname v).length = v.length + 6 := by
  unfold avgname
  rw [String.length_append]
  rfl

theorem pname_assoc (v : String) (i : Nat) : pname v i = v ++ ("_p_" ++ natStr i) := by
  unfold pname
  rw [String.append_assoc]

theorem pname_inj (v w : String) (i j : Nat) (hv : v.length = w.length)
    (h : pname v i = pname w j) : v = w ∧ i = j := by
  rw [pname_assoc, pname_assoc] at h
  obtain ⟨h1, h2⟩ := string_append_inj _ _ _ _ hv h
  obtain ⟨_, h4⟩ := string_append_inj "_p_" "_p_" _ _ rfl h2
  exact ⟨h1, natStr_injective h4⟩

theorem pname_ne_avgname (v w : String) (i : Nat) (hv : v.length = w.length) :
    pname v i ≠ avgname w := by
  intro h
  rw [pname_assoc] at h
  obtain ⟨_, h2⟩ := string_append_inj _ _ _ _ hv h
  have hd := congrArg String.data h2
  rw [String.data_append] at hd
  simp at hd

theorem pname_ne_short (v : String) (i : Nat) (w : String) (hw : w.length = 1) :
    pname v i ≠ w := by
  intro h
  have hl := congrArg String.length h
  rw [pname_length] at hl
  have := natStr_length_pos i
  omega

theorem avgname_inj (v w : String) (hv : v.length = w.length)
    (h : avgname v = avgname w) : v = w :=
  (string_append_inj _ _ _ _ hv h).1

theorem avgname_ne_short (v w : String) (hw : w.length = 1) : avgname v ≠ w := by
  intro h
  have hl := congrArg String.length h
  rw [avgname_length] at hl
  omega

theorem permName_inj (i j : Nat) (h : permName i = permName j) : i = j := by
  obtain ⟨_, h2⟩ := string_append_inj "TLID_permuted_" "TLID_permuted_" _ _ rfl h
  exact natStr_injective h2

theorem varNames_length_one : ∀ v ∈ varNames, v.length = 1 := by decide

theorem pname_ne_var {v w : String} (_hv : v ∈ varNames) (hw : w ∈ varNames) (i : Nat) :
    pname v i ≠ w :=
  pname_ne_short v i w (varNames_length_one w hw)

theorem avgname_ne_var {v w : String} (_hv : v ∈ varNames) (hw : w ∈ varNames) :
    avgname v ≠ w :=
  avgname_ne_short v w (varNames_length_one w hw)

theorem pname_inj_var {v w : String} (hv : v ∈ varNames) (hw : w ∈ varNames) (i j : Nat)
    (h : pname v i = pname w j) : v = w ∧ i = j :=
  pname_inj v w i j (by rw [varNames_length_one v hv, varNames_length_one w hw]) h

theorem pname_ne_avgname_var {v w : String} (hv : v ∈ varNames) (hw : w ∈ varNames) (i : Nat) :
    pname v i ≠ avgname w :=
  pname_ne_avgname v w i (by rw [varNames_length_one v hv, varNames_length_one w hw])

/-! ### permute_houses lemmas -/
theorem permute_houses_fst (stream : Nat → Nat) (df : Df) (seed : Nat) (st : RandState) :
    (permute_houses stream df seed st).1
      = df.setCol (permName seed)
          (transformPermute stream (df.colV "BLKID") (df.colV "TLID") st.npPos) := rfl

theorem permute_houses_snd (stream : Nat → Nat) (df : Df) (seed : Nat) (st : RandState) :
    (permute_houses stream df seed st).2
      = ⟨seed, st.npPos + (df.colV "BLKID").length⟩ := rfl

theorem permute_houses_colV (stream : Nat → Nat) (df : Df) (seed : Nat) (st : RandState)
    (hWF : df.WF) :
    (permute_houses stream df seed st).1.colV (permName seed)
      = transformPermute stream (df.colV "BLKID") (df.colV "TLID") st.npPos := by
  rw [permute_houses_fst]
  exact Df.colV_setCol_self _ _ _ hWF (by rw [transformPermute_length, Df.colV_length])

theorem permute_houses_colV_ne (stream : Nat → Nat) (df : Df) (seed : Nat) (st : RandState)
    (c : String) (h : c ≠ permName seed) :
    (permute_houses stream df seed st).1.colV c = df.colV c := by
  rw [permute_houses_fst]
  exact Df.colV_setCol_ne _ _ _ _ h (by rw [transformPermute_length, Df.colV_length])

theorem permute_houses_cols (stream : Nat → Nat) (df : Df) (seed : Nat) (st : RandState) :
    (permute_houses stream df seed st).1.cols
      = if permName seed ∈ df.cols then df.cols else df.cols ++ [permName seed] := by
  rw [permute_houses_fst, Df.setCol_cols]

theorem permute_houses_WF (stream : Nat → Nat) (df : Df) (seed : Nat) (st : RandState)
    (hWF : df.WF) : (permute_houses stream df seed st).1.WF := by
  rw [permute_houses_fst]
  exact Df.setCol_WF _ _ _ hWF (by rw [transformPermute_length, Df.colV_length])

theorem permute_houses_rows_length (stream : Nat → Nat) (df : Df) (seed : Nat) (st : RandState) :
    (permute_houses stream df seed st).1.rows.length = df.rows.length := by
  rw [permute_houses_fst]
  exact Df.setCol_rows_length _ _ _ (by rw [transformPermute_length, Df.colV_length])

/-- The central within-block invariant: the shuffled column, restricted to any
one block group, is a rearrangement of the group's own original TLIDs. -/
theorem permute_houses_group_perm (stream : Nat → Nat) (df : Df) (seed : Nat)
    (st : RandState) (hWF : df.WF) (g : Val) :
    (grpVals (df.colV "BLKID")
        ((permute_houses stream df seed st).1.colV (permName seed)) g).Perm
      (grpVals (df.colV "BLKID") (df.colV "TLID") g) := by
  rw [permute_houses_colV _ _ _ _ hWF]
  exact grpVals_permute_perm stream _ _ _ g

/-- A singleton block group is shuffled to itself. -/
theorem transformPermute_singleton (stream : Nat → Nat) (K C : List Val) (pos0 : Nat)
    (g : Val) (j : Nat) (hj : npos K g = [j]) :
    (transformPermute stream K C pos0).getD j (Val.i 0) = C.getD j (Val.i 0) := by
  have hjmem : j ∈ npos K g := by rw [hj]; exact List.mem_singleton_self j
  obtain ⟨hjlt, hjval⟩ := (mem_npos K g j).mp hjmem
  unfold transformPermute
  rw [mapRange_getD _ _ _ _ hjlt, hjval]
  simp only [hj]
  have hgv : grpVals K C g = [C.getD j (Val.i 0)] := by
    unfold grpVals
    rw [hj]
    rfl
  rw [hgv]
  have hrp : randPick stream (grpStart K pos0 g) [C.getD j (Val.i 0)]
      = [C.getD j (Val.i 0)] := by
    unfold randPick randPickGo
    simp [randPickGo, Nat.mod_one]
  rw [hrp]
  simp [List.indexOf_cons_self]

/-! ### Aggregate-table lemmas -/
theorem Agg.setColScalar_index (a : Agg) (n : String) (x : Rat) :
    (a.setColScalar n x).index = a.index := by
  unfold Agg.setColScalar
  by_cases h : n ∈ a.acols <;> simp [h]

theorem Agg.setColScalar_acols (a : Agg) (n : String) (x : Rat) :
    (a.setColScalar n x).acols = if n ∈ a.acols then a.acols else a.acols ++ [n] := by
  unfold Agg.setColScalar
  by_cases h : n ∈ a.acols <;> simp [h]

theorem Agg.setColScalar_arows (a : Agg) (n : String) (x : Rat) :
    (a.setColScalar n x).arows
      = a.arows.map (fun r => if n ∈ a.acols then assocSet r n x else r ++ [(n, x)]) := by
  unfold Agg.setColScalar
  by_cases h : n ∈ a.acols <;> simp [h]

theorem Agg.setColScalar_rows_length (a : Agg) (n : String) (x : Rat) :
    (a.setColScalar n x).arows.length = a.arows.length := by
  rw [Agg.setColScalar_arows, List.length_map]

theorem Agg.setColScalar_WF (a : Agg) (n : String) (x : Rat) (h : AggWF a) :
    AggWF (a.setColScalar n x) := by
  intro r hr
  rw [Agg.setColScalar_arows] at hr
  rw [Agg.setColScalar_acols]
  obtain ⟨r0, hr0, rfl⟩ := List.mem_map.mp hr
  by_cases hc : n ∈ a.acols <;> simp only [hc, if_true, if_false]
  · rw [assocSet_keys, h r0 hr0]
  · rw [List.map_append, h r0 hr0]
    rfl

theorem Agg.setColScalar_get_self (a : Agg) (n : String) (x : Rat) (h : AggWF a) :
    ∀ r ∈ (a.setColScalar n x).arows, assocGet r n = some x := by
  intro r hr
  rw [Agg.setColScalar_arows] at hr
  obtain ⟨r0, hr0, rfl⟩ := List.mem_map.mp hr
  by_cases hc : n ∈ a.acols <;> simp only [hc, if_true, if_false]
  · exact assocGet_assocSet_self r0 n x (by rw [h r0 hr0]; exact hc)
  · exact assocGet_append_self r0 n x (by rw [h r0 hr0]; exact hc)

theorem Agg.setColScalar_get_ne (a : Agg) (n n' : String) (x : Rat) (h : n' ≠ n) :
    ∀ r ∈ (a.setColScalar n x).arows, ∃ r0 ∈ a.arows, assocGet r n' = assocGet r0 n' := by
  intro r hr
  rw [Agg.setColScalar_arows] at hr
  obtain ⟨r0, hr0, rfl⟩ := List.mem_map.mp hr
  refine ⟨r0, hr0, ?_⟩
  by_cases hc : n ∈ a.acols <;> simp only [hc, if_true, if_false]
  · exact assocGet_assocSet_ne r0 n n' x h
  · exact assocGet_append_ne r0 n n' x h

theorem Agg.colQ_setColScalar_ne (a : Agg) (n n' : String) (x : Rat) (h : n' ≠ n) :
    (a.setColScalar n x).colQ n' = a.colQ n' := by
  unfold Agg.colQ
  rw [Agg.setColScalar_arows, List.map_map]
  apply List.map_congr_left
  intro r hr
  by_cases hc : n ∈ a.acols <;> simp only [hc, if_true, if_false, Function.comp]
  · rw [assocGet_assocSet_ne r n n' x h]
  · rw [assocGet_append_ne r n n' x h]

theorem PBound_setColScalar (a : Agg) (n : String) (x : Rat) (hb : PBound a)
    (hx : 0 ≤ x ∧ x ≤ 1) : PBound (a.setColScalar n x) := by
  intro r hr p hp hpv
  rw [Agg.setColScalar_arows] at hr
  obtain ⟨r0, hr0, rfl⟩ := List.mem_map.mp hr
  by_cases hc : n ∈ a.acols <;> simp only [hc, if_true, if_false] at hp
  · unfold assocSet at hp
    obtain ⟨p0, hp0, rfl⟩ := List.mem_map.mp hp
    by_cases hpn : p0.1 = n
    · have hb0 : (p0.1 == n) = true := by simpa using hpn
      simp only [hb0, if_true]
      exact hx
    · have hb0 : (p0.1 == n) = false := by simpa using hpn
      simp only [hb0, Bool.false_eq_true, if_false] at hpv ⊢
      exact hb r0 hr0 p0 hp0 hpv
  · rcases List.mem_append.mp hp with hp | hp
    · exact hb r0 hr0 p hp hpv
    · rw [List.mem_singleton.mp hp]
      exact hx

theorem pValScalar_ok_elim (synth aggs : Agg) (v : String) (p : Rat)
    (h : pValScalar synth aggs v = .ok p) :
    synth.index = aggs.index ∧ synth.arows.length ≠ 0 ∧
      p = ((((synth.colQ v).zip (aggs.colQ v)).countP
              (fun q => decide (|q.2| < |q.1|)) : Nat) : Rat)
            / ((synth.arows.length : Nat) : Rat) := by
  unfold pValScalar at h
  by_cases hi : synth.index = aggs.index
  · rw [if_pos hi] at h
    by_cases hz : synth.arows.length = 0
    · rw [if_pos hz] at h
      cases h
    · rw [if_neg hz] at h
      simp only [Except.ok.injEq] at h
      exact ⟨hi, hz, h.symm⟩
  · rw [if_neg hi] at h
    cases h

theorem pValScalar_ok_bounds (synth aggs : Agg) (v : String) (p : Rat)
    (h : pValScalar synth aggs v = .ok p) : 0 ≤ p ∧ p ≤ 1 := by
  obtain ⟨_, hz, hp⟩ := pValScalar_ok_elim synth aggs v p h
  have hcnt : ((synth.colQ v).zip (aggs.colQ v)).countP (fun q => decide (|q.2| < |q.1|))
      ≤ synth.arows.length := by
    calc ((synth.colQ v).zip (aggs.colQ v)).countP (fun q => decide (|q.2| < |q.1|))
        ≤ ((synth.colQ v).zip (aggs.colQ v)).length := List.countP_le_length _
      _ ≤ (synth.colQ v).length := by
          rw [List.length_zip]
          exact Nat.min_le_left _ _
      _ = synth.arows.length := by simp [Agg.colQ]
  have hlen : (0 : Rat) < (synth.arows.length : Nat) := by
    have : 0 < synth.arows.length := Nat.pos_of_ne_zero hz
    exact_mod_cast this
  constructor
  · rw [hp]
    positivity
  · rw [hp, div_le_one hlen]
    exact_mod_cast hcnt

theorem pValScalar_congr (synth a1 a2 : Agg) (v : String) (hi : a1.index = a2.index)
    (hc : a1.colQ v = a2.colQ v) : pValScalar synth a1 v = pValScalar synth a2 v := by
  unfold pValScalar
  rw [hi, hc]

/-! ### The per-iteration variable loop -/
theorem varSteps_ok : ∀ (ws : List String) (synth : Agg) (i : Nat) (aggs aggs2 : Agg),
    varSteps synth i ws aggs = .ok aggs2 →
    ws.Nodup → (∀ v ∈ ws, v ∈ varNames) → AggWF aggs →
    (∀ v ∈ ws, pname v i ∉ aggs.acols) →
    (aggs2.index = aggs.index ∧
     aggs2.acols = aggs.acols ++ ws.map (fun v => pname v i) ∧
     AggWF aggs2 ∧
     aggs2.arows.length = aggs.arows.length ∧
     (∀ n, (∀ v ∈ ws, n ≠ pname v i) → aggs2.colQ n = aggs.colQ n) ∧
     (∀ n x, (∀ v ∈ ws, n ≠ pname v i) →
        (∀ r ∈ aggs.arows, assocGet r n = some x) →
        (∀ r ∈ aggs2.arows, assocGet r n = some x)) ∧
     (∀ v ∈ ws, ∃ p, pValScalar synth aggs v = .ok p ∧
        ∀ r ∈ aggs2.arows, assocGet r (pname v i) = some p) ∧
     (PBound aggs → PBound aggs2)) := by
  intro ws
  induction ws with
  | nil =>
    intro synth i aggs aggs2 h _ _ hWF _
    rw [varSteps] at h
    simp only [Except.ok.injEq] at h
    subst h
    refine ⟨rfl, by simp, hWF, rfl, fun n _ => rfl, fun n x _ hx => hx, ?_, fun hb => hb⟩
    intro v hv
    simp at hv
  | cons v rest ih =>
    intro synth i aggs aggs2 h hnd hsub hWF hfresh
    rw [varSteps] at h
    cases hpv : pValScalar synth aggs v with
    | error e => rw [hpv] at h; cases h
    | ok p =>
      rw [hpv] at h
      have hvmem : v ∈ varNames := hsub v (List.mem_cons_self v rest)
      have hvfresh : pname v i ∉ aggs.acols := hfresh v (List.mem_cons_self v rest)
      have hnd' : rest.Nodup := (List.nodup_cons.mp hnd).2
      have hvnotin : v ∉ rest := (List.nodup_cons.mp hnd).1
      have hsub' : ∀ w ∈ rest, w ∈ varNames := fun w hw => hsub w (List.mem_cons_of_mem v hw)
      have hWF1 : AggWF (aggs.setColScalar (pname v i) p) := Agg.setColScalar_WF _ _ _ hWF
      have hacols1 : (aggs.setColScalar (pname v i) p).acols = aggs.acols ++ [pname v i] := by
        rw [Agg.setColScalar_acols, if_neg hvfresh]
      have hfresh1 : ∀ w ∈ rest, pname w i ∉ (aggs.setColScalar (pname v i) p).acols := by
        intro w hw
        rw [hacols1]
        intro hc
        rcases List.mem_append.mp hc with hc | hc
        · exact hfresh w (List.mem_cons_of_mem v hw) hc
        · have := List.mem_singleton.mp hc
          have hvw := pname_inj_var (hsub' w hw) hvmem i i this
          exact hvnotin (hvw.1 ▸ hw)
      obtain ⟨ih1, ih2, ih3, ih4, ih5, ih6, ih7, ih8⟩ :=
        ih synth i (aggs.setColScalar (pname v i) p) aggs2 h hnd' hsub' hWF1 hfresh1
      have hne_rest : ∀ w ∈ rest, pname v i ≠ pname w i := by
        intro w hw hc
        have := pname_inj_var hvmem (hsub' w hw) i i hc
        exact hvnotin (this.1 ▸ hw)
      refine ⟨?_, ?_, ih3, ?_, ?_, ?_, ?_, ?_⟩
      · rw [ih1, Agg.setColScalar_index]
      · rw [ih2, hacols1, List.map_cons, List.append_assoc]
        rfl
      · rw [ih4, Agg.setColScalar_rows_length]
      · intro n hn
        have hn' : ∀ w ∈ rest, n ≠ pname w i := fun w hw => hn w (List.mem_cons_of_mem v hw)
        rw [ih5 n hn', Agg.colQ_setColScalar_ne _ _ _ _ (hn v (List.mem_cons_self v rest))]
      · intro n x hn hx
        have hn' : ∀ w ∈ rest, n ≠ pname w i := fun w hw => hn w (List.mem_cons_of_mem v hw)
        apply ih6 n x hn'
        intro r hr
        obtain ⟨r0, hr0, he⟩ :=
          Agg.setColScalar_get_ne aggs (pname v i) n p (hn v (List.mem_cons_self v rest)) r hr
        rw [he]
        exact hx r0 hr0
      · intro w hw
        rcases List.mem_cons.mp hw with rfl | hw
        · refine ⟨p, hpv, ?_⟩
          apply ih6 (pname w i) p hne_rest
          exact Agg.setColScalar_get_self aggs (pname w i) p hWF
        · obtain ⟨q, hq1, hq2⟩ := ih7 w hw
          refine ⟨q, ?_, hq2⟩
          rw [← hq1]
          apply pValScalar_congr
          · rw [Agg.setColScalar_index]
          · exact (Agg.colQ_setColScalar_ne _ _ _ _
              (Ne.symm (pname_ne_var hvmem (hsub' w hw) i))).symm
      · intro hb
        exact ih8 (PBound_setColScalar aggs (pname v i) p hb
          (pValScalar_ok_bounds synth aggs v p hpv))

/-! ### groupbyMean and iteration-loop lemmas -/
theorem groupbyMean_acols (df : Df) (key : String) (vs : List String) :
    (groupbyMean df key vs).acols = vs := rfl

theorem groupbyMean_WF (df : Df) (key : String) (vs : List String) :
    AggWF (groupbyMean df key vs) := by
  intro r hr
  unfold groupbyMean at hr
  simp only [List.mem_map] at hr
  obtain ⟨g, _, rfl⟩ := hr
  rw [groupbyMean_acols]
  induction vs with
  | nil => rfl
  | cons v rest ihv => simp only [List.map_cons, ihv]

theorem groupbyMean_rows_length (df : Df) (key : String) (vs : List String) :
    (groupbyMean df key vs).arows.length = (groupbyMean df key vs).index.length := by
  have harows : (groupbyMean df key vs).arows = (groupbyMean df key vs).index.map
      (fun g => vs.map (fun v =>
        (v, ratMean ((grpVals (df.colV key) (df.colV v) g).map Val.toRat)))) := rfl
  rw [harows, List.length_map]

theorem groupbyMean_empty (df : Df) (key : String) (vs : List String) (h : df.rows = []) :
    groupbyMean df key vs = ⟨[], vs, []⟩ := by
  unfold groupbyMean
  simp [Df.colV, h, sortedKeys, dedupVals, sortVals]

theorem groupbyMean_PBound (df : Df) (key : String) :
    PBound (groupbyMean df key varNames) := by
  intro r hr p hp hpv
  unfold groupbyMean at hr
  simp only [List.mem_map] at hr
  obtain ⟨g, _, rfl⟩ := hr
  simp only [List.mem_map] at hp
  obtain ⟨v, hv, rfl⟩ := hp
  exact absurd hv hpv

theorem mem_pnameBlocks : ∀ (is : List Nat) (x : String),
    x ∈ pnameBlocks is ↔ ∃ i ∈ is, ∃ v ∈ varNames, x = pname v i := by
  intro is
  induction is with
  | nil => intro x; simp [pnameBlocks]
  | cons i rest ih =>
    intro x
    simp only [pnameBlocks, List.mem_append, List.mem_map, ih]
    constructor
    · rintro (⟨v, hv, rfl⟩ | ⟨j, hj, v, hv, rfl⟩)
      · exact ⟨i, List.mem_cons_self i rest, v, hv, rfl⟩
      · exact ⟨j, List.mem_cons_of_mem i hj, v, hv, rfl⟩
    · rintro ⟨j, hj, v, hv, rfl⟩
      rcases List.mem_cons.mp hj with rfl | hj
      · exact Or.inl ⟨v, hv, rfl⟩
      · exact Or.inr ⟨j, hj, v, hv, rfl⟩

theorem varNames_nodup : varNames.Nodup := by decide

theorem iterStep_ok_elim (stream : Nat → Nat) (i : Nat) (aggs : Agg) (data : Df)
    (st : RandState) (aggs2 : Agg) (data2 : Df) (st2 : RandState)
    (h : iterStep stream i (aggs, data, st) = .ok (aggs2, data2, st2)) :
    varSteps (groupbyMean (permute_houses stream data i st).1 (permName i) varNames)
        i varNames aggs = .ok aggs2
      ∧ data2 = (permute_houses stream data i st).1
      ∧ st2 = (permute_houses stream data i st).2 := by
  have h2 : (match varSteps (groupbyMean (permute_houses stream data i st).1 (permName i)
        varNames) i varNames aggs with
      | Except.error e => (Except.error e : Except String (Agg × Df × RandState))
      | Except.ok a =>
        Except.ok (a, (permute_houses stream data i st).1, (permute_houses stream data i st).2))
      = Except.ok (aggs2, data2, st2) := h
  cases hv : varSteps (groupbyMean (permute_houses stream data i st).1 (permName i) varNames)
      i varNames aggs with
  | error e =>
    rw [hv] at h2
    cases h2
  | ok a =>
    rw [hv] at h2
    simp only [Except.ok.injEq, Prod.mk.injEq] at h2
    obtain ⟨ha, hb, hc⟩ := h2
    exact ⟨congrArg Except.ok ha, hb.symm, hc.symm⟩

theorem runIters_ok : ∀ (is : List Nat) (stream : Nat → Nat) (aggs : Agg) (data : Df)
    (st : RandState) (aggs2 : Agg) (data2 : Df) (st2 : RandState),
    runIters stream is (aggs, data, st) = .ok (aggs2, data2, st2) →
    is.Nodup → AggWF aggs → data.WF →
    (∀ v ∈ varNames, ∀ i ∈ is, pname v i ∉ aggs.acols) →
    (∀ i ∈ is, permName i ∉ data.cols) →
    (aggs2.index = aggs.index ∧
     aggs2.acols = aggs.acols ++ pnameBlocks is ∧
     AggWF aggs2 ∧
     aggs2.arows.length = aggs.arows.length ∧
     (PBound aggs → PBound aggs2) ∧
     data2.WF ∧
     data2.cols = data.cols ++ is.map permName ∧
     (∀ c ∈ data.cols, data2.colV c = data.colV c) ∧
     data2.rows.length = data.rows.length) := by
  intro is
  induction is with
  | nil =>
    intro stream aggs data st aggs2 data2 st2 h _ hWFa hWFd _ _
    rw [runIters] at h
    simp only [Except.ok.injEq, Prod.mk.injEq] at h
    obtain ⟨h1, h2, _⟩ := h
    subst h1; subst h2
    exact ⟨rfl, by simp [pnameBlocks], hWFa, rfl, fun hb => hb, hWFd, by simp,
      fun c _ => rfl, rfl⟩
  | cons i rest ih =>
    intro stream aggs data st aggs2 data2 st2 h hnd hWFa hWFd hfa hfd
    rw [runIters] at h
    cases hstep : iterStep stream i (aggs, data, st) with
    | error e => rw [hstep] at h; cases h
    | ok s1 =>
      rw [hstep] at h
      obtain ⟨aggs1, data1, st1⟩ := s1
      obtain ⟨hvs, hd1, hst1⟩ := iterStep_ok_elim stream i aggs data st aggs1 data1 st1 hstep
      have hifresh : permName i ∉ data.cols := hfd i (List.mem_cons_self i rest)
      have hinotin : i ∉ rest := (List.nodup_cons.mp hnd).1
      have hnd' : rest.Nodup := (List.nodup_cons.mp hnd).2
      obtain ⟨v1, v2, v3, v4, _, _, _, v8⟩ :=
        varSteps_ok varNames _ i aggs aggs1 hvs varNames_nodup (fun v hv => hv) hWFa
          (fun v hv => hfa v hv i (List.mem_cons_self i rest))
      have hd1WF : data1.WF := hd1 ▸ permute_houses_WF stream data i st hWFd
      have hd1cols : data1.cols = data.cols ++ [permName i] := by
        rw [hd1, permute_houses_cols, if_neg hifresh]
      have hd1len : data1.rows.length = data.rows.length := by
        rw [hd1]
        exact permute_houses_rows_length stream data i st
      have hd1colV : ∀ c ∈ data.cols, data1.colV c = data.colV c := by
        intro c hc
        rw [hd1]
        exact permute_houses_colV_ne stream data i st c (fun hcp => hifresh (hcp ▸ hc))
      have hfa1 : ∀ v ∈ varNames, ∀ j ∈ rest, pname v j ∉ aggs1.acols := by
        intro v hv j hj hc
        rw [v2] at hc
        rcases List.mem_append.mp hc with hc | hc
        · exact hfa v hv j (List.mem_cons_of_mem i hj) hc
        · obtain ⟨w, hw, hwe⟩ := List.mem_map.mp hc
          obtain ⟨_, hji⟩ := pname_inj_var hv hw j i hwe.symm
          exact hinotin (hji ▸ hj)
      have hfd1 : ∀ j ∈ rest, permName j ∉ data1.cols := by
        intro j hj hc
        rw [hd1cols] at hc
        rcases List.mem_append.mp hc with hc | hc
        · exact hfd j (List.mem_cons_of_mem i hj) hc
        · have := permName_inj j i (List.mem_singleton.mp hc)
          exact hinotin (this ▸ hj)
      obtain ⟨c1, c2, c3, c4, c5, c6, c7, c8, c9⟩ :=
        ih stream aggs1 data1 st1 aggs2 data2 st2 h hnd' v3 hd1WF hfa1 hfd1
      refine ⟨by rw [c1, v1], ?_, c3, by rw [c4, v4], fun hb => c5 (v8 hb), c6, ?_, ?_, ?_⟩
      · rw [c2, v2, List.append_assoc]
        rfl
      · rw [c7, hd1cols, List.append_assoc]
        rfl
      · intro c hc
        rw [← hd1colV c hc]
        exact c8 c (by rw [hd1cols]; exact List.mem_append_left _ hc)
      · rw [c9, hd1len]

theorem mem_pcolsOf (N : Nat) (v : String) (x : String) :
    x ∈ pcolsOf N v ↔ ∃ i, i < N ∧ x = pname v i := by
  simp [pcolsOf, List.mem_map, List.mem_range]
  constructor
  · rintro ⟨i, hi, rfl⟩; exact ⟨i, hi, rfl⟩
  · rintro ⟨i, hi, rfl⟩; exact ⟨i, hi, rfl⟩

theorem mem_pcolsAll (N : Nat) : ∀ (ws : List String) (x : String),
    x ∈ pcolsAll N ws ↔ ∃ v ∈ ws, ∃ i, i < N ∧ x = pname v i := by
  intro ws
  induction ws with
  | nil => intro x; simp [pcolsAll]
  | cons v rest ih =>
    intro x
    simp only [pcolsAll, List.mem_append, ih, mem_pcolsOf]
    constructor
    · rintro (⟨i, hi, rfl⟩ | ⟨w, hw, i, hi, rfl⟩)
      · exact ⟨v, List.mem_cons_self v rest, i, hi, rfl⟩
      · exact ⟨w, List.mem_cons_of_mem v hw, i, hi, rfl⟩
    · rintro ⟨w, hw, i, hi, rfl⟩
      rcases List.mem_cons.mp hw with rfl | hw
      · exact Or.inl ⟨i, hi, rfl⟩
      · exact Or.inr ⟨w, hw, i, hi, rfl⟩

theorem map_getD_lt {α β : Type} (l : List α) (f : α → β) (k : Nat) (d : α) (d2 : β)
    (h : k < l.length) : (l.map f).getD k d2 = f (l.getD k d) := by
  rw [List.getD_eq_getElem _ _ (by simpa using h), List.getElem_map,
    List.getD_eq_getElem _ _ h]

theorem rowMeanP_bounds (N : Nat) (v : String) (r : List (String × Rat))
    (hb : ∀ p ∈ r, p.1 ∉ varNames → 0 ≤ p.2 ∧ p.2 ≤ 1) :
    0 ≤ rowMeanP N v r ∧ rowMeanP N v r ≤ 1 := by
  have hvals : ∀ x ∈ (List.range N).map (fun i => (assocGet r (pname v i)).getD 0),
      0 ≤ x ∧ x ≤ 1 := by
    intro x hx
    obtain ⟨i, _, rfl⟩ := List.mem_map.mp hx
    cases hfind : assocGet r (pname v i) with
    | none => simp [hfind]
    | some y =>
      simp only [hfind, Option.getD_some]
      unfold assocGet at hfind
      cases hf : r.find? (fun p => p.1 == pname v i) with
      | none => rw [hf] at hfind; cases hfind
      | some q =>
        rw [hf] at hfind
        simp only [Option.map_some', Option.some.injEq] at hfind
        have hqmem : q ∈ r := List.mem_of_find?_eq_some hf
        have hqfst : q.1 = pname v i := by
          have := List.find?_some hf
          simpa using this
        have hnotvar : q.1 ∉ varNames := by
          rw [hqfst]
          intro hc
          exact pname_ne_short v i (pname v i) (varNames_length_one _ hc) rfl
        rw [← hfind]
        exact hb q hqmem hnotvar
  have hlen : ((List.range N).map (fun i => (assocGet r (pname v i)).getD 0)).length = N := by
    simp
  have hsum0 : 0 ≤ ((List.range N).map (fun i => (assocGet r (pname v i)).getD 0)).sum :=
    List.sum_nonneg (fun x hx => (hvals x hx).1)
  have hsumN : ((List.range N).map (fun i => (assocGet r (pname v i)).getD 0)).sum
      ≤ (N : Rat) := by
    calc ((List.range N).map (fun i => (assocGet r (pname v i)).getD 0)).sum
        ≤ ((List.range N).map (fun i => (assocGet r (pname v i)).getD 0)).length • (1 : Rat) :=
          List.sum_le_card_nsmul _ _ (fun x hx => (hvals x hx).2)
      _ = (N : Rat) := by rw [hlen]; simp
  unfold rowMeanP
  by_cases hN : N = 0
  · subst hN
    simp
  · have hNpos : (0 : Rat) < (N : Nat) := by
      have : 0 < N := Nat.pos_of_ne_zero hN
      exact_mod_cast this
    constructor
    · positivity
    · rw [div_le_one hNpos]
      exact hsumN

theorem contains_eq_true_iff {α : Type} [BEq α] [LawfulBEq α] (l : List α) (a : α) :
    l.contains a = true ↔ a ∈ l := List.elem_iff

theorem not_contains_iff {α : Type} [BEq α] [LawfulBEq α] (l : List α) (a : α) :
    (!(l.contains a)) = true ↔ a ∉ l := by
  constructor
  · intro h hc
    rw [(contains_eq_true_iff l a).mpr hc] at h
    exact absurd h (by decide)
  · intro h
    cases hb : l.contains a
    · rfl
    · exact absurd ((contains_eq_true_iff l a).mp hb) h

theorem avgStep_ok (N : Nat) (v : String) (a : Agg)
    (hpres : ∀ i, i < N → pname v i ∈ a.acols) (havg : avgname v ∉ a.acols) :
    avgStep N v a = .ok ⟨a.index,
      (a.acols ++ [avgname v]).filter (fun c => !((pcolsOf N v).contains c)),
      a.arows.map (fun r =>
        (r ++ [(avgname v, rowMeanP N v r)]).filter
          (fun p => !((pcolsOf N v).contains p.1)))⟩ := by
  unfold avgStep
  have hall : ((List.range N).map (pname v)).all (fun c => a.acols.contains c) = true := by
    rw [List.all_eq_true]
    intro c hc
    have hc' : c ∈ pcolsOf N v := hc
    obtain ⟨i, hi, rfl⟩ := (mem_pcolsOf N v c).mp hc'
    exact (contains_eq_true_iff _ _).mpr (hpres i hi)
  rw [if_pos hall, if_neg havg]
  simp only [List.map_map]
  rfl

theorem rowMeanP_congr (N : Nat) (v : String) (r1 r2 : List (String × Rat))
    (h : ∀ i, i < N → assocGet r1 (pname v i) = assocGet r2 (pname v i)) :
    rowMeanP N v r1 = rowMeanP N v r2 := by
  unfold rowMeanP
  congr 1
  apply congrArg
  apply List.map_congr_left
  intro i hi
  rw [h i (List.mem_range.mp hi)]

theorem avgname_not_mem_pcolsOf (N : Nat) (v w : String) (hv : v ∈ varNames)
    (hw : w ∈ varNames) : avgname w ∉ pcolsOf N v := by
  intro hc
  obtain ⟨i, _, he⟩ := (mem_pcolsOf N v _).mp hc
  exact pname_ne_avgname_var hv hw i he.symm

theorem avgname_not_mem_pcolsAll (N : Nat) (ws : List String) (w : String)
    (hws : ∀ u ∈ ws, u ∈ varNames) (hw : w ∈ varNames) : avgname w ∉ pcolsAll N ws := by
  intro hc
  obtain ⟨u, hu, i, _, he⟩ := (mem_pcolsAll N ws _).mp hc
  exact pname_ne_avgname_var (hws u hu) hw i he.symm

theorem pname_not_mem_pcolsOf (N : Nat) (v w : String) (hv : v ∈ varNames)
    (hw : w ∈ varNames) (hne : w ≠ v) (i : Nat) : pname w i ∉ pcolsOf N v := by
  intro hc
  obtain ⟨j, _, he⟩ := (mem_pcolsOf N v _).mp hc
  exact hne (pname_inj_var hw hv i j he).1

theorem contains_eq_false_iff {α : Type} [BEq α] [LawfulBEq α] (l : List α) (a : α) :
    l.contains a = false ↔ a ∉ l := by
  constructor
  · intro h hc
    rw [(contains_eq_true_iff l a).mpr hc] at h
    cases h
  · intro h
    cases hb : l.contains a
    · rfl
    · exact absurd ((contains_eq_true_iff l a).mp hb) h

theorem filter_singleton_pos {α : Type} (x : α) (p : α → Bool) (h : p x = true) :
    [x].filter p = [x] := by
  simp [List.filter_cons, h]

theorem avgSteps_ok : ∀ (ws : List String) (N : Nat) (a : Agg),
    ws.Nodup → (∀ v ∈ ws, v ∈ varNames) → AggWF a →
    (∀ v ∈ ws, ∀ i, i < N → pname v i ∈ a.acols) →
    (∀ v ∈ ws, avgname v ∉ a.acols) →
    ∃ out, avgSteps N ws a = .ok out ∧
      out.index = a.index ∧
      out.acols = a.acols.filter (fun c => !((pcolsAll N ws).contains c)) ++ ws.map avgname ∧
      AggWF out ∧
      out.arows.length = a.arows.length ∧
      (∀ v ∈ ws, ∀ k, k < a.arows.length →
        assocGet (out.arows.getD k []) (avgname v)
          = some (rowMeanP N v (a.arows.getD k []))) ∧
      (∀ n, n ∉ pcolsAll N ws → (∀ v ∈ ws, n ≠ avgname v) →
        ∀ k, k < a.arows.length →
          assocGet (out.arows.getD k []) n = assocGet (a.arows.getD k []) n) ∧
      (PBound a → PBound out) := by
  intro ws
  induction ws with
  | nil =>
    intro N a _ _ hWF _ _
    refine ⟨a, rfl, rfl, ?_, hWF, rfl, by simp, fun n _ _ k _ => rfl, fun hb => hb⟩
    have hall : ∀ c ∈ a.acols, (!((pcolsAll N []).contains c)) = true := by
      intro c _
      rfl
    rw [List.filter_eq_self.mpr hall]
    simp
  | cons v rest ih =>
    intro N a hnd hsub hWF hpres havg
    have hvmem : v ∈ varNames := hsub v (List.mem_cons_self v rest)
    have hva : avgname v ∉ a.acols := havg v (List.mem_cons_self v rest)
    have hvp : ∀ i, i < N → pname v i ∈ a.acols := hpres v (List.mem_cons_self v rest)
    have hvnotin : v ∉ rest := (List.nodup_cons.mp hnd).1
    have hnd' : rest.Nodup := (List.nodup_cons.mp hnd).2
    have hsub' : ∀ w ∈ rest, w ∈ varNames := fun w hw => hsub w (List.mem_cons_of_mem v hw)
    have hstep := avgStep_ok N v a hvp hva
    set a1 : Agg := ⟨a.index,
      (a.acols ++ [avgname v]).filter (fun c => !((pcolsOf N v).contains c)),
      a.arows.map (fun r =>
        (r ++ [(avgname v, rowMeanP N v r)]).filter
          (fun p => !((pcolsOf N v).contains p.1)))⟩ with ha1
    have ha1len : a1.arows.length = a.arows.length := List.length_map _ _
    have ha1row : ∀ k, k < a.arows.length → a1.arows.getD k []
        = ((a.arows.getD k []) ++ [(avgname v, rowMeanP N v (a.arows.getD k []))]).filter
            (fun p => !((pcolsOf N v).contains p.1)) := by
      intro k hk
      exact map_getD_lt a.arows _ k [] [] hk
    have hrowsmem : ∀ k, k < a.arows.length → a.arows.getD k [] ∈ a.arows := by
      intro k hk
      rw [List.getD_eq_getElem _ _ hk]
      exact List.getElem_mem hk
    have hkeys : ∀ k, k < a.arows.length → (a.arows.getD k []).map Prod.fst = a.acols :=
      fun k hk => hWF _ (hrowsmem k hk)
    have ha1WF : AggWF a1 := by
      intro r hr
      obtain ⟨r0, hr0, rfl⟩ := List.mem_map.mp hr
      rw [filter_keys _ (fun c => !((pcolsOf N v).contains c)), List.map_append, hWF r0 hr0]
      rfl
    have hpres1 : ∀ w ∈ rest, ∀ i, i < N → pname w i ∈ a1.acols := by
      intro w hw i hi
      apply List.mem_filter.mpr
      refine ⟨List.mem_append_left _ (hpres w (List.mem_cons_of_mem v hw) i hi), ?_⟩
      exact (not_contains_iff _ _).mpr
        (pname_not_mem_pcolsOf N v w hvmem (hsub' w hw) (fun hc => hvnotin (hc ▸ hw)) i)
    have havg1 : ∀ w ∈ rest, avgname w ∉ a1.acols := by
      intro w hw hc
      have hc2 := (List.mem_filter.mp hc).1
      rcases List.mem_append.mp hc2 with hc2 | hc2
      · exact havg w (List.mem_cons_of_mem v hw) hc2
      · have heq := avgname_inj w v
          (by rw [varNames_length_one w (hsub' w hw), varNames_length_one v hvmem])
          (List.mem_singleton.mp hc2)
        exact hvnotin (heq ▸ hw)
    obtain ⟨out, hout, o1, o2, o3, o4, o5, o6, o7⟩ := ih N a1 hnd' hsub' ha1WF hpres1 havg1
    have hrun : avgSteps N (v :: rest) a = .ok out := by
      rw [avgSteps, hstep]
      exact hout
    have havn : avgname v ∉ pcolsOf N v := avgname_not_mem_pcolsOf N v v hvmem hvmem
    have havnAll : avgname v ∉ pcolsAll N rest :=
      avgname_not_mem_pcolsAll N rest v hsub' hvmem
    have hrowlookup : ∀ k, k < a.arows.length → ∀ n, n ∉ pcolsOf N v → n ≠ avgname v →
        assocGet (a1.arows.getD k []) n = assocGet (a.arows.getD k []) n := by
      intro k hk n hnp hnav
      rw [ha1row k hk,
        assocGet_filter _ (fun c => !((pcolsOf N v).contains c)) _
          ((not_contains_iff _ _).mpr hnp),
        assocGet_append_ne _ _ _ _ hnav]
    have hrowavg : ∀ k, k < a.arows.length →
        assocGet (a1.arows.getD k []) (avgname v)
          = some (rowMeanP N v (a.arows.getD k [])) := by
      intro k hk
      rw [ha1row k hk,
        assocGet_filter _ (fun c => !((pcolsOf N v).contains c)) _
          ((not_contains_iff _ _).mpr havn),
        assocGet_append_self _ _ _ (by rw [hkeys k hk]; exact hva)]
    refine ⟨out, hrun, by rw [o1], ?_, o3, by rw [o4, ha1len], ?_, ?_, ?_⟩
    · rw [o2]
      show ((a.acols ++ [avgname v]).filter (fun c => !((pcolsOf N v).contains c))).filter
            (fun c => !((pcolsAll N rest).contains c)) ++ rest.map avgname
          = a.acols.filter (fun c => !((pcolsAll N (v :: rest)).contains c))
            ++ (v :: rest).map avgname
      rw [List.filter_append,
        filter_singleton_pos (avgname v) (fun c => !((pcolsOf N v).contains c))
          ((not_contains_iff _ _).mpr havn),
        List.filter_append,
        filter_singleton_pos (avgname v) (fun c => !((pcolsAll N rest).contains c))
          ((not_contains_iff _ _).mpr havnAll),
        List.filter_filter]
      have hpred : ∀ c ∈ a.acols,
          ((!((pcolsAll N rest).contains c)) && (!((pcolsOf N v).contains c)))
            = (!((pcolsAll N (v :: rest)).contains c)) := by
        intro c _
        by_cases hcv : c ∈ pcolsOf N v
        · rw [(contains_eq_true_iff _ _).mpr hcv,
            (contains_eq_true_iff (pcolsAll N (v :: rest)) c).mpr
              (List.mem_append_left _ hcv)]
          simp
        · by_cases hcr : c ∈ pcolsAll N rest
          · rw [(contains_eq_true_iff _ _).mpr hcr,
              (contains_eq_true_iff (pcolsAll N (v :: rest)) c).mpr
                (List.mem_append_right _ hcr)]
            simp
          · have hcc : c ∉ pcolsAll N (v :: rest) := by
              intro hc
              rcases List.mem_append.mp hc with hc | hc
              · exact hcv hc
              · exact hcr hc
            rw [(contains_eq_false_iff _ _).mpr hcv,
              (contains_eq_false_iff _ _).mpr hcr,
              (contains_eq_false_iff _ _).mpr hcc]
            rfl
      rw [List.filter_congr hpred, List.map_cons, List.append_assoc]
      rfl
    · intro w hw k hk
      rcases List.mem_cons.mp hw with rfl | hw
      · have h6 := o6 (avgname w) havnAll
          (fun u hu hc => hvnotin ((avgname_inj w u
            (by rw [varNames_length_one w hvmem, varNames_length_one u (hsub' u hu)]) hc) ▸ hu))
          k (by rw [ha1len]; exact hk)
        rw [h6, hrowavg k hk]
      · have h5 := o5 w hw k (by rw [ha1len]; exact hk)
        rw [h5]
        congr 1
        apply rowMeanP_congr
        intro i hi
        exact hrowlookup k hk (pname w i)
          (pname_not_mem_pcolsOf N v w hvmem (hsub' w hw) (fun hc => hvnotin (hc ▸ hw)) i)
          (pname_ne_avgname_var (hsub' w hw) hvmem i)
    · intro n hn hnavg k hk
      have hnv : n ∉ pcolsOf N v := fun hc => hn (List.mem_append_left _ hc)
      have hnr : n ∉ pcolsAll N rest := fun hc => hn (List.mem_append_right _ hc)
      have h6 := o6 n hnr (fun u hu => hnavg u (List.mem_cons_of_mem v hu)) k
        (by rw [ha1len]; exact hk)
      rw [h6, hrowlookup k hk n hnv (hnavg v (List.mem_cons_self v rest))]
    · intro hb
      apply o7
      intro r1 hr1 p hp hpv
      obtain ⟨r0, hr0, rfl⟩ := List.mem_map.mp hr1
      have hp2 := List.mem_of_mem_filter hp
      rcases List.mem_append.mp hp2 with hp2 | hp2
      · exact hb r0 hr0 p hp2 hpv
      · rw [List.mem_singleton.mp hp2]
        exact rowMeanP_bounds N v r0 (fun q hq hqv => hb r0 hr0 q hq hqv)

/-! ### Error paths -/
theorem avgStep_ok_exists (N : Nat) (w : String) (a : Agg)
    (hall : ((List.range N).map (pname w)).all (fun c => a.acols.contains c) = true) :
    ∃ a1, avgStep N w a = .ok a1 ∧
      a1.acols = ((if avgname w ∈ a.acols then a.acols else a.acols ++ [avgname w]).filter
        (fun c => !((pcolsOf N w).contains c))) := by
  unfold avgStep
  rw [if_pos hall]
  by_cases hm : avgname w ∈ a.acols
  · rw [if_pos hm]
    exact ⟨_, rfl, by rw [if_pos hm]; rfl⟩
  · rw [if_neg hm]
    exact ⟨_, rfl, by rw [if_neg hm]; rfl⟩

theorem avgStep_missing (N : Nat) (w : String) (a : Agg) (i : Nat) (hi : i < N)
    (hmiss : pname w i ∉ a.acols) : avgStep N w a = .error keyErrMsg := by
  unfold avgStep
  have hfalse : ¬ (((List.range N).map (pname w)).all (fun c => a.acols.contains c) = true) := by
    intro hall
    rw [List.all_eq_true] at hall
    have hmem : pname w i ∈ (List.range N).map (pname w) :=
      List.mem_map.mpr ⟨i, List.mem_range.mpr hi, rfl⟩
    exact hmiss ((contains_eq_true_iff _ _).mp (hall _ hmem))
  rw [if_neg hfalse]

theorem avgSteps_missing : ∀ (ws : List String) (N : Nat) (a : Agg) (v : String) (i : Nat),
    v ∈ ws → (∀ w ∈ ws, w ∈ varNames) → i < N → pname v i ∉ a.acols →
    avgSteps N ws a = .error keyErrMsg := by
  intro ws
  induction ws with
  | nil =>
    intro N a v i hv _ _ _
    exact absurd hv (List.not_mem_nil v)
  | cons w rest ih =>
    intro N a v i hv hsub hi hmiss
    rcases List.mem_cons.mp hv with rfl | hv
    · rw [avgSteps, avgStep_missing N v a i hi hmiss]
    · cases hall : ((List.range N).map (pname w)).all (fun c => a.acols.contains c) with
      | false =>
        have herr : avgStep N w a = .error keyErrMsg := by
          unfold avgStep
          rw [if_neg (by rw [hall]; exact Bool.false_ne_true)]
        rw [avgSteps, herr]
      | true =>
        obtain ⟨a1, hstep, hacols⟩ := avgStep_ok_exists N w a hall
        have hmiss1 : pname v i ∉ a1.acols := by
          rw [hacols]
          intro hc
          have hc1 := (List.mem_filter.mp hc).1
          by_cases hm : avgname w ∈ a.acols
          · rw [if_pos hm] at hc1
            exact hmiss hc1
          · rw [if_neg hm] at hc1
            rcases List.mem_append.mp hc1 with hc1 | hc1
            · exact hmiss hc1
            · exact pname_ne_avgname_var (hsub v (List.mem_cons_of_mem w hv))
                (hsub w (List.mem_cons_self w rest)) i (List.mem_singleton.mp hc1)
        rw [avgSteps, hstep]
        exact ih N a1 v i hv (fun u hu => hsub u (List.mem_cons_of_mem w hu)) hi hmiss1

theorem Df.setCol_rows_empty (df : Df) (c : String) (vs : List Val) (h : df.rows = []) :
    (df.setCol c vs).rows = [] := by
  unfold Df.setCol
  by_cases hc : c ∈ df.cols <;> simp [hc, h]

theorem permute_houses_rows_empty (stream : Nat → Nat) (df : Df) (seed : Nat)
    (st : RandState) (h : df.rows = []) :
    (permute_houses stream df seed st).1.rows = [] := by
  rw [permute_houses_fst]
  exact Df.setCol_rows_empty _ _ _ h

theorem pValScalar_empty (vs1 vs2 : List String) (v : String) :
    pValScalar ⟨[], vs1, []⟩ ⟨[], vs2, []⟩ v = .error zeroDivErrMsg := rfl

theorem varSteps_empty (synth aggs : Agg) (i : Nat)
    (hsynth : synth = ⟨[], varNames, []⟩) (haggs : aggs = ⟨[], varNames, []⟩) :
    varSteps synth i varNames aggs = .error zeroDivErrMsg := by
  subst hsynth haggs
  show varSteps _ i ("A" :: ["B", "C", "D", "E"]) _ = _
  rw [varSteps, pValScalar_empty]

theorem find_p_vals_aggs_empty (stream : Nat → Nat) (data : Df) (N : Nat) (st : RandState)
    (hrows : data.rows = []) (hN : 1 ≤ N) :
    find_p_vals_aggs stream data N st = .error zeroDivErrMsg := by
  obtain ⟨m, rfl⟩ : ∃ m, N = m + 1 := ⟨N - 1, by omega⟩
  unfold find_p_vals_aggs
  rw [List.range_succ_eq_map]
  have haggs0 : groupbyMean data "TLID" varNames = ⟨[], varNames, []⟩ :=
    groupbyMean_empty data "TLID" varNames hrows
  have hd1rows : (permute_houses stream data 0 st).1.rows = [] :=
    permute_houses_rows_empty stream data 0 st hrows
  have hsynth : groupbyMean (permute_houses stream data 0 st).1 (permName 0) varNames
      = ⟨[], varNames, []⟩ :=
    groupbyMean_empty _ _ _ hd1rows
  have hvs : varSteps (groupbyMean (permute_houses stream data 0 st).1 (permName 0) varNames)
      0 varNames (groupbyMean data "TLID" varNames) = .error zeroDivErrMsg :=
    varSteps_empty _ _ 0 hsynth haggs0
  have hstep : iterStep stream 0 (groupbyMean data "TLID" varNames, data, st)
      = .error zeroDivErrMsg := by
    have h2 : (match varSteps
          (groupbyMean (permute_houses stream data 0 st).1 (permName 0) varNames)
          0 varNames (groupbyMean data "TLID" varNames) with
        | Except.error e => (Except.error e : Except String (Agg × Df × RandState))
        | Except.ok a =>
          Except.ok (a, (permute_houses stream data 0 st).1,
            (permute_houses stream data 0 st).2))
        = iterStep stream 0 (groupbyMean data "TLID" varNames, data, st) := rfl
    rw [← h2, hvs]
  rw [runIters, hstep]

theorem find_p_vals_empty (stream : Nat → Nat) (data : Df) (N : Nat) (st : RandState)
    (hrows : data.rows = []) (hN : 1 ≤ N) :
    find_p_vals stream data N st = .error zeroDivErrMsg := by
  unfold find_p_vals
  rw [find_p_vals_aggs_empty stream data N st hrows hN]

/-! ### Claim theorems -/
/-- C2 (code bug shown at the failing input): `permute_houses` seeds the stdlib
`random` module but draws from numpy's untouched global generator, so calling it
twice with the identical two-row table and the identical seed 0 — the second
call starting from the numpy state the first call left behind — produces two
different permuted-label columns.  The output is not determined by the seed and
the input ordering, contradicting the spec's determinism requirement. -/
theorem C2_same_seed_different_output :
    (permute_houses exStream exDf2 0 ⟨0, 0⟩).1.colV (permName 0) = [Val.i 2, Val.i 1] ∧
    (permute_houses exStream exDf2 0
        (permute_houses exStream exDf2 0 ⟨0, 0⟩).2).1.colV (permName 0)
      = [Val.i 1, Val.i 2] ∧
    ([Val.i 2, Val.i 1] : List Val) ≠ [Val.i 1, Val.i 2] := by
  with_unfolding_all decide

/-- C3: for every well-formed input table, seed and RNG state, the permuted
column produced by `permute_houses`, restricted to the rows of any one block
group, is a permutation of that block group's original multiset of segment
keys: every original TLID is reused exactly once per block group and no
household receives a TLID from a different block group. -/
theorem C3_within_block_multiset (stream : Nat → Nat) (df : Df) (seed : Nat)
    (st : RandState) (hWF : df.WF) (g : Val) :
    (grpVals (df.colV "BLKID")
        ((permute_houses stream df seed st).1.colV (permName seed)) g).Perm
      (grpVals (df.colV "BLKID") (df.colV "TLID") g) :=
  permute_houses_group_perm stream df seed st hWF g

theorem C3_within_block_multiset_witness :
    exDf2.WF ∧
    (grpVals (exDf2.colV "BLKID")
        ((permute_houses exStream exDf2 0 ⟨0, 0⟩).1.colV (permName 0)) (Val.i 1)).Perm
      (grpVals (exDf2.colV "BLKID") (exDf2.colV "TLID") (Val.i 1)) :=
  ⟨by decide, C3_within_block_multiset exStream exDf2 0 ⟨0, 0⟩ (by decide) (Val.i 1)⟩

/-- C9: `permute_houses` on an empty table succeeds and returns an empty table
that carries the new permuted-label column; and a block group consisting of a
single household keeps its own segment key. -/
theorem C9_empty_and_singleton :
    (∀ (stream : Nat → Nat) (cols : List String) (seed : Nat) (st : RandState),
      (permute_houses stream ⟨cols, []⟩ seed st).1.rows = [] ∧
      permName seed ∈ (permute_houses stream ⟨cols, []⟩ seed st).1.cols) ∧
    (∀ (stream : Nat → Nat) (df : Df) (seed : Nat) (st : RandState) (g : Val) (j : Nat),
      df.WF → npos (df.colV "BLKID") g = [j] →
      ((permute_houses stream df seed st).1.colV (permName seed)).getD j (Val.i 0)
        = (df.colV "TLID").getD j (Val.i 0)) := by
  constructor
  · intro stream cols seed st
    constructor
    · exact permute_houses_rows_empty stream ⟨cols, []⟩ seed st rfl
    · rw [permute_houses_cols]
      by_cases h : permName seed ∈ cols
      · rw [if_pos h]
        exact h
      · rw [if_neg h]
        exact List.mem_append_right _ (List.mem_singleton_self _)
  · intro stream df seed st g j hWF hj
    rw [permute_houses_colV stream df seed st hWF]
    exact transformPermute_singleton stream _ _ _ g j hj

theorem C9_empty_and_singleton_witness :
    ((permute_houses exStream ⟨["BLKID", "TLID"], []⟩ 5 ⟨0, 0⟩).1.rows = [] ∧
      permName 5 ∈ (permute_houses exStream ⟨["BLKID", "TLID"], []⟩ 5 ⟨0, 0⟩).1.cols) ∧
    (exDf1.WF ∧ npos (exDf1.colV "BLKID") (Val.i 1) = [0] ∧
      ((permute_houses exStream exDf1 3 ⟨0, 0⟩).1.colV (permName 3)).getD 0 (Val.i 0)
        = (exDf1.colV "TLID").getD 0 (Val.i 0)) :=
  ⟨C9_empty_and_singleton.1 exStream ["BLKID", "TLID"] 5 ⟨0, 0⟩,
   by with_unfolding_all decide, by with_unfolding_all decide,
   C9_empty_and_singleton.2 exStream exDf1 3 ⟨0, 0⟩ (Val.i 1) 0
     (by decide) (by with_unfolding_all decide)⟩

/-- C4: when the input table is empty — so the permuted aggregate has zero
rows — the p-value computation inside `find_p_vals` raises an explicit
`ZeroDivisionError` (the Python `0 / 0` on line 93) rather than silently
producing a NaN or Inf p-value. -/
theorem C4_empty_aggregate_division_error (stream : Nat → Nat) (data : Df) (N : Nat)
    (st : RandState) (hrows : data.rows = []) (hN : 1 ≤ N) :
    find_p_vals stream data N st = .error zeroDivErrMsg :=
  find_p_vals_empty stream data N st hrows hN

theorem C4_empty_aggregate_division_error_witness :
    find_p_vals exStream exEmptyDf 1 ⟨0, 0⟩ = .error zeroDivErrMsg :=
  C4_empty_aggregate_division_error exStream exEmptyDf 1 ⟨0, 0⟩ rfl (by decide)

/-- C8: if `average_pvals` is invoked with an iteration count `N` such that
some expected per-iteration p-value column `v_p_i` (with `v` a tracked
variable and `i < N`) is absent from the input table, it fails with the
explicit missing-column `KeyError` raised by the column selection, rather than
performing a partial or silent aggregation. -/
theorem C8_missing_column_error (a : Agg) (N : Nat) (v : String) (i : Nat)
    (hv : v ∈ varNames) (hi : i < N) (hmiss : pname v i ∉ a.acols) :
    average_pvals a N = .error keyErrMsg :=
  avgSteps_missing varNames N a v i hv (fun _ hw => hw) hi hmiss

theorem C8_missing_column_error_witness :
    average_pvals ⟨[], ["A_p_0"], []⟩ 2 = .error keyErrMsg :=
  C8_missing_column_error ⟨[], ["A_p_0"], []⟩ 2 "A" 1 (by decide) (by decide)
    (by with_unfolding_all decide)

/-- C1 counterexample: on a one-block table with segments 1 and 2 and variable
A carrying means 1 and 3, iteration 0 swaps the two labels.  The code assigns
the iteration-0 p-value 1/2 to segment 2 (the index-aligned count of segments
whose permuted mean magnitude exceeds their own true mean magnitude, over 2
segments), whereas the claim's global comparison against segment 2's true value
|3| yields 0: no permuted segment mean exceeds 3 in magnitude.  The claim is
false on the code. -/
theorem C1_counterexample :
    (match find_p_vals_aggs exStream exC1Df 1 ⟨0, 0⟩ with
     | .ok (a, _, _) => assocGet (a.arows.getD 1 []) (pname "A" 0)
     | .error _ => none) = some ((1 : Rat)/2) ∧
    specGlobalPVal
      (groupbyMean (permute_houses exStream exC1Df 0 ⟨0, 0⟩).1 (permName 0) varNames)
      (groupbyMean exC1Df "TLID" varNames) (Val.i 2) "A" = 0 ∧
    ((1 : Rat)/2) ≠ 0 := by
  with_unfolding_all decide

/-- C1 amended: in each iteration `i` of `find_p_vals`, the p-value for
variable `v` is a single scalar assigned to EVERY true segment row alike; it
equals the count of index-ALIGNED segment pairs in which the permuted
aggregate's absolute mean for `v` exceeds the true aggregate's absolute mean
for `v` at the same segment key, divided by the number of permuted-aggregate
rows.  The comparison is pairwise by segment key (pandas Series alignment),
not a global comparison of each true segment's value against the whole
permuted distribution. -/
theorem C1_pvalue_is_single_aligned_scalar (stream : Nat → Nat) (i : Nat) (aggs : Agg)
    (data : Df) (st : RandState) (aggs2 : Agg) (data2 : Df) (st2 : RandState)
    (h : iterStep stream i (aggs, data, st) = .ok (aggs2, data2, st2))
    (hWF : AggWF aggs) (hfresh : ∀ v ∈ varNames, pname v i ∉ aggs.acols)
    (v : String) (hv : v ∈ varNames) :
    ∃ p, (∀ r ∈ aggs2.arows, assocGet r (pname v i) = some p) ∧
      (groupbyMean (permute_houses stream data i st).1 (permName i) varNames).index
        = aggs.index ∧
      (groupbyMean (permute_houses stream data i st).1 (permName i) varNames).arows.length
        ≠ 0 ∧
      p = (((((groupbyMean (permute_houses stream data i st).1 (permName i) varNames).colQ v).zip
              (aggs.colQ v)).countP (fun q => decide (|q.2| < |q.1|)) : Nat) : Rat)
            / (((groupbyMean (permute_houses stream data i st).1 (permName i)
                  varNames).arows.length : Nat) : Rat) := by
  obtain ⟨hvs, _, _⟩ := iterStep_ok_elim stream i aggs data st aggs2 data2 st2 h
  obtain ⟨_, _, _, _, _, _, h7, _⟩ :=
    varSteps_ok varNames _ i aggs aggs2 hvs varNames_nodup (fun w hw => hw) hWF hfresh
  obtain ⟨p, hp1, hp2⟩ := h7 v hv
  obtain ⟨he1, he2, he3⟩ := pValScalar_ok_elim _ _ _ _ hp1
  exact ⟨p, hp2, he1, he2, he3⟩

theorem C1_pvalue_is_single_aligned_scalar_witness :
    ∃ p, (∀ r ∈ c1Aggs2.arows, assocGet r (pname "A" 0) = some p) ∧
      (groupbyMean (permute_houses exStream exC1Df 0 ⟨0, 0⟩).1 (permName 0) varNames).index
        = c1Aggs0.index ∧
      (groupbyMean (permute_houses exStream exC1Df 0 ⟨0, 0⟩).1 (permName 0)
          varNames).arows.length ≠ 0 ∧
      p = (((((groupbyMean (permute_houses exStream exC1Df 0 ⟨0, 0⟩).1 (permName 0)
                varNames).colQ "A").zip
              (c1Aggs0.colQ "A")).countP (fun q => decide (|q.2| < |q.1|)) : Nat) : Rat)
            / (((groupbyMean (permute_houses exStream exC1Df 0 ⟨0, 0⟩).1 (permName 0)
                  varNames).arows.length : Nat) : Rat) :=
  C1_pvalue_is_single_aligned_scalar exStream 0 c1Aggs0 exC1Df ⟨0, 0⟩ c1Aggs2 c1Data2 c1St2
    (by with_unfolding_all decide) (groupbyMean_WF exC1Df "TLID" varNames)
    (by with_unfolding_all decide) "A" (by decide)

/-! ### Whole-pipeline facts -/
theorem pname_mem_pnameBlocks (v : String) (i : Nat) (is : List Nat)
    (hv : v ∈ varNames) (hi : i ∈ is) : pname v i ∈ pnameBlocks is :=
  (mem_pnameBlocks is _).mpr ⟨i, hi, v, hv, rfl⟩

theorem find_p_vals_aggs_ok_facts (stream : Nat → Nat) (data : Df) (N : Nat)
    (st : RandState) (aggs : Agg) (d2 : Df) (st2 : RandState)
    (hWF : data.WF) (hfresh : ∀ i, i < N → permName i ∉ data.cols)
    (h : find_p_vals_aggs stream data N st = .ok (aggs, d2, st2)) :
    aggs.index = (groupbyMean data "TLID" varNames).index ∧
    aggs.acols = varNames ++ pnameBlocks (List.range N) ∧
    AggWF aggs ∧
    aggs.arows.length = (groupbyMean data "TLID" varNames).arows.length ∧
    PBound aggs ∧
    d2.WF ∧
    d2.cols = data.cols ++ (List.range N).map permName ∧
    (∀ c ∈ data.cols, d2.colV c = data.colV c) ∧
    d2.rows.length = data.rows.length := by
  unfold find_p_vals_aggs at h
  obtain ⟨r1, r2, r3, r4, r5, r6, r7, r8, r9⟩ :=
    runIters_ok (List.range N) stream (groupbyMean data "TLID" varNames) data st
      aggs d2 st2 h (List.nodup_range N) (groupbyMean_WF _ _ _) hWF
      (fun v _ i _ => by
        rw [groupbyMean_acols]
        exact fun hc => pname_ne_short v i _ (varNames_length_one _ hc) rfl)
      (fun i hi => hfresh i (List.mem_range.mp hi))
  exact ⟨r1, by rw [r2, groupbyMean_acols], r3, r4,
    r5 (groupbyMean_PBound data "TLID"), r6, r7, r8, r9⟩

theorem avgname_not_mem_pnameBlocks (w : String) (hw : w ∈ varNames) (is : List Nat) :
    avgname w ∉ pnameBlocks is := by
  intro hc
  obtain ⟨i, _, v, hv, he⟩ := (mem_pnameBlocks is _).mp hc
  exact pname_ne_avgname_var hv hw i he.symm

theorem average_pvals_after_compute (aggs : Agg) (N : Nat) 
    (hacols : aggs.acols = varNames ++ pnameBlocks (List.range N))
    (hWF : AggWF aggs) :
    ∃ out, average_pvals aggs N = .ok out ∧
      out.index = aggs.index ∧
      out.acols = varNames ++ varNames.map avgname ∧
      AggWF out ∧
      out.arows.length = aggs.arows.length ∧
      (∀ v ∈ varNames, ∀ k, k < aggs.arows.length →
        assocGet (out.arows.getD k []) (avgname v)
          = some (rowMeanP N v (aggs.arows.getD k []))) ∧
      (PBound aggs → PBound out) := by
  have hpres : ∀ v ∈ varNames, ∀ i, i < N → pname v i ∈ aggs.acols := by
    intro v hv i hi
    rw [hacols]
    exact List.mem_append_right _
      (pname_mem_pnameBlocks v i _ hv (List.mem_range.mpr hi))
  have havg : ∀ v ∈ varNames, avgname v ∉ aggs.acols := by
    intro v hv hc
    rw [hacols] at hc
    rcases List.mem_append.mp hc with hc | hc
    · exact avgname_ne_short v _ (varNames_length_one _ hc) rfl
    · exact avgname_not_mem_pnameBlocks v hv _ hc
  obtain ⟨out, hout, o1, o2, o3, o4, o5, o6, o7⟩ :=
    avgSteps_ok varNames N aggs varNames_nodup (fun _ hw => hw) hWF hpres havg
  refine ⟨out, hout, o1, ?_, o3, o4, o5, o7⟩
  rw [o2, hacols, List.filter_append]
  have hvarskeep : varNames.filter (fun c => !((pcolsAll N varNames).contains c))
      = varNames := by
    apply List.filter_eq_self.mpr
    intro c hc
    apply (not_contains_iff _ _).mpr
    intro hcc
    obtain ⟨v, hv, i, _, he⟩ := (mem_pcolsAll N varNames _).mp hcc
    exact pname_ne_var hv hc i he.symm
  have hpdrop : (pnameBlocks (List.range N)).filter
      (fun c => !((pcolsAll N varNames).contains c)) = [] := by
    apply List.filter_eq_nil_iff.mpr
    intro c hc
    obtain ⟨i, hi, v, hv, rfl⟩ := (mem_pnameBlocks _ _).mp hc
    have : pname v i ∈ pcolsAll N varNames :=
      (mem_pcolsAll N varNames _).mpr ⟨v, hv, i, List.mem_range.mp hi, rfl⟩
    rw [(contains_eq_true_iff _ _).mpr this]
    decide
  rw [hvarskeep, hpdrop, List.append_nil]

/-- C5: running the per-iteration p-value computation of `find_p_vals` with
iteration count `N` and then `average_pvals` with the same `N` succeeds and
yields a table with no per-iteration p-value column left, exactly one averaged
column per tracked variable, and the same segment-key index and row count as
the per-iteration table. -/
theorem C5_round_trip (stream : Nat → Nat) (data : Df) (N : Nat) (st : RandState)
    (aggs : Agg) (d2 : Df) (st2 : RandState)
    (hWF : data.WF) (hfresh : ∀ i, i < N → permName i ∉ data.cols) (_hN : 1 ≤ N)
    (h : find_p_vals_aggs stream data N st = .ok (aggs, d2, st2)) :
    ∃ out, average_pvals aggs N = .ok out ∧
      (∀ v ∈ varNames, ∀ i, i < N → pname v i ∉ out.acols) ∧
      (∀ v ∈ varNames, out.acols.count (avgname v) = 1) ∧
      out.index = aggs.index ∧
      out.arows.length = aggs.arows.length := by
  obtain ⟨_, f2, f3, _, _, _, _, _, _⟩ :=
    find_p_vals_aggs_ok_facts stream data N st aggs d2 st2 hWF hfresh h
  obtain ⟨out, hout, o1, o2, _, o4, _, _⟩ := average_pvals_after_compute aggs N f2 f3
  refine ⟨out, hout, ?_, ?_, o1, o4⟩
  · intro v hv i _
    rw [o2]
    intro hc
    rcases List.mem_append.mp hc with hc | hc
    · exact pname_ne_short v i _ (varNames_length_one _ hc) rfl
    · obtain ⟨w, hw, he⟩ := List.mem_map.mp hc
      exact pname_ne_avgname_var hv hw i he.symm
  · intro v hv
    rw [o2, List.count_append]
    have hc1 : varNames.count (avgname v) = 0 := by
      apply List.count_eq_zero.mpr
      intro hc
      exact avgname_ne_short v _ (varNames_length_one _ hc) rfl
    have hnd : (varNames.map avgname).Nodup := by
      apply List.Nodup.map_on
      · intro w hw u hu he
        exact avgname_inj w u
          (by rw [varNames_length_one w hw, varNames_length_one u hu]) he
      · exact varNames_nodup
    have hc2 : (varNames.map avgname).count (avgname v) = 1 :=
      List.count_eq_one_of_mem hnd (List.mem_map.mpr ⟨v, hv, rfl⟩)
    rw [hc1, hc2]

theorem C5_round_trip_witness :
    exC1Df.WF ∧
    (∃ out, average_pvals c5Aggs 1 = .ok out ∧
      (∀ v ∈ varNames, ∀ i, i < 1 → pname v i ∉ out.acols) ∧
      (∀ v ∈ varNames, out.acols.count (avgname v) = 1) ∧
      out.index = c5Aggs.index ∧
      out.arows.length = c5Aggs.arows.length) :=
  ⟨by decide,
   C5_round_trip exStream exC1Df 1 ⟨0, 0⟩ c5Aggs c5Data2 c5St2 (by decide)
     (by intro i hi; interval_cases i; decide) (by decide)
     (by with_unfolding_all decide)⟩

theorem PBound_lookup (a : Agg) (hb : PBound a) (r : List (String × Rat))
    (hr : r ∈ a.arows) (n : String) (hn : n ∉ varNames) :
    0 ≤ (assocGet r n).getD 0 ∧ (assocGet r n).getD 0 ≤ 1 := by
  cases hfind : assocGet r n with
  | none =>
    constructor <;> norm_num
  | some y =>
    simp only [Option.getD_some]
    unfold assocGet at hfind
    cases hf : r.find? (fun p => p.1 == n) with
    | none => rw [hf] at hfind; cases hfind
    | some q =>
      rw [hf] at hfind
      simp only [Option.map_some', Option.some.injEq] at hfind
      have hqmem := List.mem_of_find?_eq_some hf
      have hqfst : q.1 = n := by simpa using List.find?_some hf
      rw [← hfind]
      exact hb r hr q hqmem (hqfst ▸ hn)

theorem find_p_vals_ok_elim (stream : Nat → Nat) (data : Df) (N : Nat) (st : RandState)
    (out : Agg) (d2 : Df) (st2 : RandState)
    (h : find_p_vals stream data N st = .ok (out, d2, st2)) :
    ∃ aggs, find_p_vals_aggs stream data N st = .ok (aggs, d2, st2) ∧
      average_pvals aggs N = .ok out := by
  unfold find_p_vals at h
  cases hfa : find_p_vals_aggs stream data N st with
  | error e => rw [hfa] at h; cases h
  | ok t =>
    obtain ⟨aggs, dd, ss⟩ := t
    rw [hfa] at h
    have h2 : (match average_pvals aggs N with
        | Except.error e => (Except.error e : Except String (Agg × Df × RandState))
        | Except.ok o => Except.ok (o, dd, ss)) = Except.ok (out, d2, st2) := h
    cases hav : average_pvals aggs N with
    | error e =>
      rw [hav] at h2
      cases h2
    | ok o =>
      rw [hav] at h2
      simp only [Except.ok.injEq, Prod.mk.injEq] at h2
      obtain ⟨hb1, hb2, hb3⟩ := h2
      exact ⟨aggs, by rw [hb2, hb3], by rw [hav, hb1]⟩

/-- C6: on any well-formed p-value table that contains, for each tracked
variable, the `N` per-iteration p-value columns (and no averaged column yet),
`average_pvals` with iteration count `N` succeeds, adds exactly one averaged
column per variable holding the arithmetic mean of the `N` per-iteration
values of that row, and removes the `N` source columns. -/
theorem C6_average_adds_mean_and_drops_sources (a : Agg) (N : Nat)
    (hWF : AggWF a) (_hN : 1 ≤ N)
    (hpres : ∀ v ∈ varNames, ∀ i, i < N → pname v i ∈ a.acols)
    (havg : ∀ v ∈ varNames, avgname v ∉ a.acols) :
    ∃ out, average_pvals a N = .ok out ∧
      (∀ v ∈ varNames, out.acols.count (avgname v) = 1) ∧
      (∀ v ∈ varNames, ∀ i, i < N → pname v i ∉ out.acols) ∧
      (∀ v ∈ varNames, ∀ k, k < a.arows.length →
        assocGet (out.arows.getD k []) (avgname v)
          = some ((((List.range N).map
              (fun i => (assocGet (a.arows.getD k []) (pname v i)).getD 0)).sum)
                / (N : Rat))) ∧
      out.index = a.index ∧ out.arows.length = a.arows.length := by
  obtain ⟨out, hout, o1, o2, _, o4, o5, _, _⟩ :=
    avgSteps_ok varNames N a varNames_nodup (fun _ hw => hw) hWF hpres havg
  refine ⟨out, hout, ?_, ?_, ?_, o1, o4⟩
  · intro v hv
    rw [o2, List.count_append]
    have hc1 : (a.acols.filter (fun c => !((pcolsAll N varNames).contains c))).count
        (avgname v) = 0 := by
      apply List.count_eq_zero.mpr
      intro hc
      exact havg v hv (List.mem_filter.mp hc).1
    have hnd : (varNames.map avgname).Nodup := by
      apply List.Nodup.map_on
      · intro w hw u hu he
        exact avgname_inj w u
          (by rw [varNames_length_one w hw, varNames_length_one u hu]) he
      · exact varNames_nodup
    have hc2 : (varNames.map avgname).count (avgname v) = 1 :=
      List.count_eq_one_of_mem hnd (List.mem_map.mpr ⟨v, hv, rfl⟩)
    rw [hc1, hc2]
  · intro v hv i hi
    rw [o2]
    intro hc
    rcases List.mem_append.mp hc with hc | hc
    · have hq := (List.mem_filter.mp hc).2
      have hmem : pname v i ∈ pcolsAll N varNames :=
        (mem_pcolsAll N varNames _).mpr ⟨v, hv, i, hi, rfl⟩
      rw [(contains_eq_true_iff _ _).mpr hmem] at hq
      exact absurd hq (by decide)
    · obtain ⟨w, hw, he⟩ := List.mem_map.mp hc
      exact pname_ne_avgname_var hv hw i he.symm
  · intro v hv k hk
    exact o5 v hv k hk

theorem C6_average_adds_mean_and_drops_sources_witness :
    ∃ out, average_pvals c6Tbl 1 = .ok out ∧
      (∀ v ∈ varNames, out.acols.count (avgname v) = 1) ∧
      (∀ v ∈ varNames, ∀ i, i < 1 → pname v i ∉ out.acols) ∧
      (∀ v ∈ varNames, ∀ k, k < c6Tbl.arows.length →
        assocGet (out.arows.getD k []) (avgname v)
          = some ((((List.range 1).map
              (fun i => (assocGet (c6Tbl.arows.getD k []) (pname v i)).getD 0)).sum)
                / ((1 : Nat) : Rat))) ∧
      out.index = c6Tbl.index ∧ out.arows.length = c6Tbl.arows.length :=
  C6_average_adds_mean_and_drops_sources c6Tbl 1 (by decide) (by decide)
    (by decide) (by decide)

/-- C7: every per-iteration p-value cell produced by the p-value computation
of `find_p_vals`, and every averaged p-value cell produced by the subsequent
`average_pvals`, lies in the closed interval [0, 1]. -/
theorem C7_pvalues_in_unit_interval :
    (∀ (stream : Nat → Nat) (data : Df) (N : Nat) (st : RandState) (aggs : Agg) (d2 : Df)
        (st2 : RandState) (v : String) (i : Nat) (r : List (String × Rat)),
      data.WF → (∀ j, j < N → permName j ∉ data.cols) →
      find_p_vals_aggs stream data N st = .ok (aggs, d2, st2) →
      v ∈ varNames → r ∈ aggs.arows →
      0 ≤ (assocGet r (pname v i)).getD 0 ∧ (assocGet r (pname v i)).getD 0 ≤ 1) ∧
    (∀ (stream : Nat → Nat) (data : Df) (N : Nat) (st : RandState) (out : Agg) (d2 : Df)
        (st2 : RandState) (v : String) (r : List (String × Rat)),
      data.WF → (∀ j, j < N → permName j ∉ data.cols) →
      find_p_vals stream data N st = .ok (out, d2, st2) →
      v ∈ varNames → r ∈ out.arows →
      0 ≤ (assocGet r (avgname v)).getD 0 ∧ (assocGet r (avgname v)).getD 0 ≤ 1) := by
  constructor
  · intro stream data N st aggs d2 st2 v i r hWF hfresh h hv hr
    obtain ⟨_, _, _, _, f5, _, _, _, _⟩ :=
      find_p_vals_aggs_ok_facts stream data N st aggs d2 st2 hWF hfresh h
    exact PBound_lookup aggs f5 r hr (pname v i)
      (fun hc => pname_ne_short v i _ (varNames_length_one _ hc) rfl)
  · intro stream data N st out d2 st2 v r hWF hfresh h hv hr
    obtain ⟨aggs, hfa, hav⟩ := find_p_vals_ok_elim stream data N st out d2 st2 h
    obtain ⟨_, f2, f3, _, f5, _, _, _, _⟩ :=
      find_p_vals_aggs_ok_facts stream data N st aggs d2 st2 hWF hfresh hfa
    obtain ⟨out2, hout2, _, _, _, _, _, o7⟩ := average_pvals_after_compute aggs N f2 f3
    have hoo : out2 = out := by
      rw [hav] at hout2
      exact ((Except.ok.injEq _ _).mp hout2).symm
    rw [hoo] at o7
    exact PBound_lookup out (o7 f5) r hr (avgname v)
      (fun hc => avgname_ne_short v _ (varNames_length_one _ hc) rfl)

theorem C7_pvalues_in_unit_interval_witness :
    (0 ≤ (assocGet (c5Aggs.arows.getD 0 []) (pname "A" 0)).getD 0 ∧
      (assocGet (c5Aggs.arows.getD 0 []) (pname "A" 0)).getD 0 ≤ 1) ∧
    (0 ≤ (assocGet (c10Out.arows.getD 0 []) (avgname "A")).getD 0 ∧
      (assocGet (c10Out.arows.getD 0 []) (avgname "A")).getD 0 ≤ 1) :=
  ⟨C7_pvalues_in_unit_interval.1 exStream exC1Df 1 ⟨0, 0⟩ c5Aggs c5Data2 c5St2 "A" 0
      (c5Aggs.arows.getD 0 []) (by decide)
      (by intro j hj; interval_cases j; decide)
      (by with_unfolding_all decide) (by decide)
      (by with_unfolding_all decide),
   C7_pvalues_in_unit_interval.2 exStream exC1Df 1 ⟨0, 0⟩ c10Out c10Data2 c10St2 "A"
      (c10Out.arows.getD 0 []) (by decide)
      (by intro j hj; interval_cases j; decide)
      (by with_unfolding_all decide) (by decide)
      (by with_unfolding_all decide)⟩

/-- C10: `permute_houses` mutates the input table (modelled by threading the
table state: the table it returns is the caller's table), so after
`find_p_vals` with iteration count `N` the caller's table has gained the `N`
permuted-label columns `TLID_permuted_0 … TLID_permuted_(N-1)` on the right,
while every pre-existing column is unchanged. -/
theorem C10_input_table_gains_permuted_columns (stream : Nat → Nat) (data : Df) (N : Nat)
    (st : RandState) (out : Agg) (data2 : Df) (st2 : RandState)
    (hWF : data.WF) (hfresh : ∀ i, i < N → permName i ∉ data.cols)
    (h : find_p_vals stream data N st = .ok (out, data2, st2)) :
    data2.cols = data.cols ++ (List.range N).map permName ∧
    (∀ c ∈ data.cols, data2.colV c = data.colV c) := by
  obtain ⟨aggs, hfa, _⟩ := find_p_vals_ok_elim stream data N st out data2 st2 h
  obtain ⟨_, _, _, _, _, _, f7, f8, _⟩ :=
    find_p_vals_aggs_ok_facts stream data N st aggs data2 st2 hWF hfresh hfa
  exact ⟨f7, f8⟩

theorem C10_input_table_gains_permuted_columns_witness :
    c10Data2.cols = exC1Df.cols ++ (List.range 1).map permName ∧
    (∀ c ∈ exC1Df.cols, c10Data2.colV c = exC1Df.colV c) :=
  C10_input_table_gains_permuted_columns exStream exC1Df 1 ⟨0, 0⟩ c10Out c10Data2 c10St2
    (by decide) (by intro i hi; interval_cases i; decide)
    (by with_unfolding_all decide)
